import Mathlib

/-!
# JS_AST_Scanner: the rule matcher of `scan.js`

A shallow embedding of `processContent` of `scan.js`: the three visitor handlers
(`MemberExpression`, `AssignmentExpression`, `CallExpression`) of the HTML branch
and of the standalone-JS branch, the depth-first walk that calls them, and the
per-unit loop around it, and the statement that loads the rule list.

JavaScript values that reach the matcher are embedded as `JSVal`; strings are
Lean strings, and the string operations used by the source (`startsWith`,
`split(".")`, template literals) work on the character sequence.  Console output
is kept as a list of structured lines, a thrown exception as `Result.error`.
-/

namespace Scan

/-! ## JavaScript values and string operations -/

/-- The JavaScript values a `name` or `value` field of a syntax node can hold.
A number is kept as the text `String(n)` renders it to, which is all the
source does with it. -/
inductive JSVal where
  | undefined
  | null
  | bool (b : Bool)
  | num (text : String)
  | str (s : String)
  deriving DecidableEq, Repr

/-- The exceptions that can leave `processContent`. -/
inductive JSError where
  | typeError (msg : String)
  | parseFailure (msg : String)
  deriving DecidableEq, Repr

/-- Truthiness, as tested by `||`. -/
def JSVal.truthy : JSVal → Bool
  | .undefined => false
  | .null => false
  | .bool b => b
  | .num t => !(t == "0" || t == "NaN")
  | .str s => !(s == "")

/-- The operator `a || b`. -/
def JSVal.or (a b : JSVal) : JSVal := if a.truthy then a else b

/-- The operator `a ?? b`. -/
def JSVal.nullish (a b : JSVal) : JSVal :=
  match a with
  | .undefined => b
  | .null => b
  | v => v

/-- The text a value is rendered to inside a template literal. -/
def JSVal.toText : JSVal → String
  | .undefined => "undefined"
  | .null => "null"
  | .bool true => "true"
  | .bool false => "false"
  | .num t => t
  | .str s => s

/-- The method `s.startsWith(p)`. -/
def startsWith (s p : String) : Bool := p.data.isPrefixOf s.data

/-- Splitting a character sequence at every `.`, as `split(".")` does. -/
def splitDotChars : List Char → List (List Char)
  | [] => [[]]
  | c :: cs =>
    if c = '.' then [] :: splitDotChars cs
    else
      match splitDotChars cs with
      | [] => [[c]]
      | seg :: rest => (c :: seg) :: rest

/-- The expression `s.split(".")`. -/
def splitDot (s : String) : List String := (splitDotChars s.data).map String.mk

/-- Indexing an array of strings: `undefined` past the end. -/
def index (xs : List String) (i : Nat) : JSVal :=
  match xs.get? i with
  | some s => .str s
  | none => .undefined

/-- The operator `a === b` on the values of this model. -/
def JSVal.strictEq : JSVal → JSVal → Bool
  | .undefined, .undefined => true
  | .null, .null => true
  | .bool a, .bool b => a == b
  | .num a, .num b => a == b && !(a == "NaN")
  | .str a, .str b => a == b
  | _, _ => false

/-- The operator `a || b` on booleans, where evaluating `b` may throw. -/
def orElse (a : Bool) (b : Except JSError Bool) : Except JSError Bool :=
  if a then .ok true else b

/-- The operator `a && b` on booleans, where evaluating `b` may throw. -/
def andAlso (a : Bool) (b : Except JSError Bool) : Except JSError Bool :=
  if a then b else .ok false

/-- Calling `v.startsWith(p)`: a string answers, a number or boolean has no such
method and a nullish value no properties at all, so the call throws. -/
def JSVal.callStartsWith (v : JSVal) (p : String) : Except JSError Bool :=
  match v with
  | .str s => .ok (startsWith s p)
  | _ => .error (.typeError "propertyName.startsWith is not a function")

/-- The method `rules.includes(v)`. -/
def includes (rules : List String) (v : JSVal) : Bool :=
  rules.any fun r => (JSVal.str r).strictEq v

/-! ## Syntax trees -/

/-- A start position `loc.start`. -/
structure Loc where
  line : Nat
  column : Nat
  deriving DecidableEq, Repr

/-- The node shapes the visitors look at.  `other` is every other node kind,
with its children in the order the walk visits them. -/
inductive Node where
  | identifier (name : String) (start : Loc)
  | literal (value : JSVal) (start : Loc)
  | member (object property : Node) (computed : Bool) (start : Loc)
  | assignment (left right : Node) (start : Loc)
  | call (callee : Node) (arguments : List Node) (start : Loc)
  | other (children : List Node) (start : Loc)

/-- The field `node.name`. -/
def Node.name : Node → JSVal
  | .identifier n _ => .str n
  | _ => .undefined

/-- The field `node.value`. -/
def Node.value : Node → JSVal
  | .literal v _ => v
  | _ => .undefined

/-- The test `node.type === "Identifier"`. -/
def Node.isIdentifier : Node → Bool
  | .identifier _ _ => true
  | _ => false

/-- The node is a literal that carries a `value` field (a string, numeric,
boolean or BigInt literal). -/
def Node.isLiteral : Node → Bool
  | .literal _ _ => true
  | _ => false

/-- The field `node.loc.start`. -/
def Node.start : Node → Loc
  | .identifier _ l => l
  | .literal _ l => l
  | .member _ _ _ l => l
  | .assignment _ _ l => l
  | .call _ _ l => l
  | .other _ l => l

/-! ## Console output and scan state -/

/-- One `Rule match` line: the text between the quotes, the `script N` tag of
the HTML branch, the position, and the expression after the colon. -/
structure Match where
  quoted : String
  script : Option Nat
  line : Nat
  column : Nat
  expr : Option String
  deriving DecidableEq, Repr

/-- A line written by `console.log`. -/
inductive Line where
  | scanning (rulesPath : String)
  | ruleMatch (m : Match)
  | noIssues
  deriving DecidableEq, Repr

/-- The console output so far (oldest first) and the `found` flag. -/
structure State where
  log : List Line
  found : Bool
  deriving DecidableEq, Repr

/-- The state a statement leaves behind, and the exception it threw if any. -/
structure Result where
  state : State
  error : Option JSError
  deriving DecidableEq, Repr

/-- The statements `console.log(...); found = true;`. -/
def report (m : Match) (s : State) : State :=
  { log := s.log ++ [.ruleMatch m], found := true }

/-- The loop `for (const x of xs) body`, left at the first exception. -/
def forOf {α : Type} (body : α → State → Result) : List α → State → Result
  | [], s => ⟨s, none⟩
  | x :: xs, s =>
    match body x s with
    | ⟨s1, none⟩ => forOf body xs s1
    | r => r

/-- Running `k` after a statement unless that statement threw. -/
def Result.andThen (r : Result) (k : State → Result) : Result :=
  match r with
  | ⟨s, none⟩ => k s
  | r => r

/-! ## The visitors of the HTML branch (`scripts.forEach`, unit `idx`) -/

/-- The handler `MemberExpression(path)` of the HTML branch. -/
def MemberExpressionHtml (rules : List String) (idx : Nat) (node : Node) (s : State) : Result :=
  match node with
  | .member object prop _ start =>
    let objectName := object.name
    let propertyName := prop.name.or (prop.value.nullish (.str ""))
    let fullAccess := objectName.toText ++ "." ++ propertyName.toText
    forOf (fun rule s =>
      if startsWith rule "element." && startsWith fullAccess "element" then
        let ruleProp := index (splitDot rule) 1
        match orElse (ruleProp.strictEq propertyName)
            (andAlso (ruleProp.strictEq (.str "onevent")) (propertyName.callStartsWith "on")) with
        | .error e => ⟨s, some e⟩
        | .ok true =>
          ⟨report ⟨rule, some (idx + 1), start.line, start.column, some fullAccess⟩ s, none⟩
        | .ok false => ⟨s, none⟩
      else if (JSVal.str rule).strictEq propertyName || fullAccess == rule then
        ⟨report ⟨rule, some (idx + 1), start.line, start.column, some fullAccess⟩ s, none⟩
      else ⟨s, none⟩) rules s
  | _ => ⟨s, none⟩

/-- The handler `AssignmentExpression(path)` of the HTML branch. -/
def AssignmentExpressionHtml (rules : List String) (idx : Nat) (node : Node) (s : State) :
    Result :=
  match node with
  | .assignment (.member object prop _ leftStart) _ _ =>
    let objectName := object.name
    let propertyName := prop.name.or (prop.value.nullish (.str ""))
    let fullAccess := objectName.toText ++ "." ++ propertyName.toText
    forOf (fun rule s =>
      if startsWith rule "element." && startsWith fullAccess "element" then
        let ruleProp := index (splitDot rule) 1
        match orElse (ruleProp.strictEq propertyName)
            (andAlso (ruleProp.strictEq (.str "onevent")) (propertyName.callStartsWith "on")) with
        | .error e => ⟨s, some e⟩
        | .ok true =>
          ⟨report ⟨rule, some (idx + 1), leftStart.line, leftStart.column, some fullAccess⟩ s,
            none⟩
        | .ok false => ⟨s, none⟩
      else if (JSVal.str rule).strictEq propertyName || fullAccess == rule then
        ⟨report ⟨rule, some (idx + 1), leftStart.line, leftStart.column, some fullAccess⟩ s,
          none⟩
      else ⟨s, none⟩) rules s
  | _ => ⟨s, none⟩

/-- The handler `CallExpression(path)` of the HTML branch. -/
def CallExpressionHtml (rules : List String) (idx : Nat) (node : Node) (s : State) : Result :=
  match node with
  | .call callee _ start =>
    let s1 :=
      if callee.isIdentifier && includes rules callee.name then
        report ⟨callee.name.toText, some (idx + 1), start.line, start.column, none⟩ s
      else s
    match callee with
    | .member _ property _ calleeStart =>
      let prop := property.name.or property.value
      if includes rules prop then
        ⟨report ⟨"." ++ prop.toText ++ "()", some (idx + 1), calleeStart.line,
          calleeStart.column, none⟩ s1, none⟩
      else ⟨s1, none⟩
    | _ => ⟨s1, none⟩
  | _ => ⟨s, none⟩

/-! ## The visitors of the standalone-JS branch -/

/-- The handler `MemberExpression(path)` of the JS branch. -/
def MemberExpressionJs (rules : List String) (node : Node) (s : State) : Result :=
  match node with
  | .member object prop _ start =>
    let objectName := object.name
    let propertyName := prop.name.or (prop.value.nullish (.str ""))
    let fullAccess := objectName.toText ++ "." ++ propertyName.toText
    forOf (fun rule s =>
      if startsWith rule "element." && startsWith fullAccess "element" then
        let ruleProp := index (splitDot rule) 1
        match orElse (ruleProp.strictEq propertyName)
            (andAlso (ruleProp.strictEq (.str "onevent")) (propertyName.callStartsWith "on")) with
        | .error e => ⟨s, some e⟩
        | .ok true => ⟨report ⟨rule, none, start.line, start.column, some fullAccess⟩ s, none⟩
        | .ok false => ⟨s, none⟩
      else if (JSVal.str rule).strictEq propertyName || fullAccess == rule then
        ⟨report ⟨rule, none, start.line, start.column, some fullAccess⟩ s, none⟩
      else ⟨s, none⟩) rules s
  | _ => ⟨s, none⟩

/-- The handler `AssignmentExpression(path)` of the JS branch: the position
printed is that of the assignment, `path.node.loc.start`. -/
def AssignmentExpressionJs (rules : List String) (node : Node) (s : State) : Result :=
  match node with
  | .assignment (.member object prop _ _) _ start =>
    let objectName := object.name
    let propertyName := prop.name.or (prop.value.nullish (.str ""))
    let fullAccess := objectName.toText ++ "." ++ propertyName.toText
    forOf (fun rule s =>
      if startsWith rule "element." && startsWith fullAccess "element" then
        let ruleProp := index (splitDot rule) 1
        match orElse (ruleProp.strictEq propertyName)
            (andAlso (ruleProp.strictEq (.str "onevent")) (propertyName.callStartsWith "on")) with
        | .error e => ⟨s, some e⟩
        | .ok true => ⟨report ⟨rule, none, start.line, start.column, some fullAccess⟩ s, none⟩
        | .ok false => ⟨s, none⟩
      else if (JSVal.str rule).strictEq propertyName || fullAccess == rule then
        ⟨report ⟨rule, none, start.line, start.column, some fullAccess⟩ s, none⟩
      else ⟨s, none⟩) rules s
  | _ => ⟨s, none⟩

/-- The handler `CallExpression(path)` of the JS branch: both findings are
printed at the position of the call, `path.node.loc.start`. -/
def CallExpressionJs (rules : List String) (node : Node) (s : State) : Result :=
  match node with
  | .call callee _ start =>
    let s1 :=
      if callee.isIdentifier && includes rules callee.name then
        report ⟨callee.name.toText, none, start.line, start.column, none⟩ s
      else s
    match callee with
    | .member _ property _ _ =>
      let prop := property.name.or property.value
      if includes rules prop then
        ⟨report ⟨"." ++ prop.toText ++ "()", none, start.line, start.column, none⟩ s1, none⟩
      else ⟨s1, none⟩
    | _ => ⟨s1, none⟩
  | _ => ⟨s, none⟩

/-! ## The walk and the scan -/

/-- The visitor object handed to `traverse`: one handler per node type. -/
structure Visitor where
  MemberExpression : Node → State → Result
  AssignmentExpression : Node → State → Result
  CallExpression : Node → State → Result

/-- The visitor object of the HTML branch for unit `idx`. -/
def visitorHtml (rules : List String) (idx : Nat) : Visitor :=
  ⟨MemberExpressionHtml rules idx, AssignmentExpressionHtml rules idx,
    CallExpressionHtml rules idx⟩

/-- The visitor object of the JS branch. -/
def visitorJs (rules : List String) : Visitor :=
  ⟨MemberExpressionJs rules, AssignmentExpressionJs rules, CallExpressionJs rules⟩

mutual
/-- The library call `traverse(ast, visitor)`: a depth-first walk that calls the
handler of a node's type when it enters the node and then walks the children
(`object, property`; `left, right`; `callee, arguments`).  An exception thrown
by a handler ends the walk. -/
def traverse (v : Visitor) : Node → State → Result
  | .identifier _ _, s => ⟨s, none⟩
  | .literal _ _, s => ⟨s, none⟩
  | .member o p c l, s =>
    (v.MemberExpression (.member o p c l) s).andThen fun s1 =>
      (traverse v o s1).andThen fun s2 => traverse v p s2
  | .assignment lhs rhs l, s =>
    (v.AssignmentExpression (.assignment lhs rhs l) s).andThen fun s1 =>
      (traverse v lhs s1).andThen fun s2 => traverse v rhs s2
  | .call f args l, s =>
    (v.CallExpression (.call f args l) s).andThen fun s1 =>
      (traverse v f s1).andThen fun s2 => traverseAll v args s2
  | .other kids _, s => traverseAll v kids s
/-- The walk over a list of children, in order. -/
def traverseAll (v : Visitor) : List Node → State → Result
  | [], s => ⟨s, none⟩
  | n :: ns, s => (traverse v n s).andThen fun s1 => traverseAll v ns s1
end

/-- What `parse(text, ...)` does with one source text: a tree, or a thrown
error for malformed input. -/
inductive Parsed where
  | tree (ast : Node)
  | failure (msg : String)

/-- The call `scripts.forEach((scriptContent, idx) => ...)` from index `idx` on:
each unit is parsed and walked in turn; nothing catches an exception. -/
def forEachScript (rules : List String) : List Parsed → Nat → State → Result
  | [], _, s => ⟨s, none⟩
  | .failure msg :: _, _, s => ⟨s, some (.parseFailure msg)⟩
  | .tree ast :: rest, idx, s =>
    (traverse (visitorHtml rules idx) ast s).andThen fun s1 =>
      forEachScript rules rest (idx + 1) s1

/-- The statement `if (!found) console.log("No issues found ...")`. -/
def finish (s : State) : Result :=
  if !s.found then ⟨{ s with log := s.log ++ [.noIssues] }, none⟩ else ⟨s, none⟩

/-- What `processContent` is given: the script texts of an HTML document
(`isHtml`), or one standalone JavaScript text. -/
inductive Content where
  | html (scripts : List Parsed)
  | js (script : Parsed)

/-- The function `processContent(content, isHtml)`. -/
def processContent (rulesPath : String) (rules : List String) (content : Content) : Result :=
  let s0 : State := ⟨[.scanning rulesPath], false⟩
  match content with
  | .html scripts => (forEachScript rules scripts 0 s0).andThen finish
  | .js (.failure msg) => ⟨s0, some (.parseFailure msg)⟩
  | .js (.tree ast) => (traverse (visitorJs rules) ast s0).andThen finish

/-! ## Vocabulary for the statements -/

/-- The constant `propertyName` of the member handlers:
`prop.name || (prop.value ?? "")`. -/
def Node.propertyName (prop : Node) : JSVal := prop.name.or (prop.value.nullish (.str ""))

/-- The constant `fullAccess` of the member handlers: the template literal
of `objectName` and `propertyName` around a dot. -/
def fullAccess (object prop : Node) : String :=
  object.name.toText ++ "." ++ prop.propertyName.toText

/-- The four places where a member expression is matched against the rules: as
a property access or as the left side of an assignment (with the right side and
the start of the assignment), in the HTML branch (unit `idx`) or the JS branch. -/
inductive Site where
  | accessHtml (idx : Nat)
  | assignHtml (idx : Nat) (right : Node) (assignStart : Loc)
  | accessJs
  | assignJs (right : Node) (assignStart : Loc)

/-- The handler of a site, run on the member expression
`object.property` (or `object[property]`) starting at `start`. -/
def Site.run (site : Site) (rules : List String) (object prop : Node) (computed : Bool)
    (start : Loc) (s : State) : Result :=
  match site with
  | .accessHtml idx => MemberExpressionHtml rules idx (.member object prop computed start) s
  | .assignHtml idx right l =>
    AssignmentExpressionHtml rules idx (.assignment (.member object prop computed start) right l) s
  | .accessJs => MemberExpressionJs rules (.member object prop computed start) s
  | .assignJs right l =>
    AssignmentExpressionJs rules (.assignment (.member object prop computed start) right l) s

/-- The `script N` tag a site prints. -/
def Site.script : Site → Option Nat
  | .accessHtml idx => some (idx + 1)
  | .assignHtml idx _ _ => some (idx + 1)
  | .accessJs => none
  | .assignJs _ _ => none

/-- The position a site prints for a member expression starting at `start`. -/
def Site.pos (site : Site) (start : Loc) : Loc :=
  match site with
  | .assignJs _ l => l
  | _ => start

/-- The finding line a site prints for rule `rule`. -/
def Site.line (site : Site) (rule : String) (object prop : Node) (start : Loc) : Line :=
  .ruleMatch ⟨rule, site.script, (site.pos start).line, (site.pos start).column,
    some (fullAccess object prop)⟩

/-- The console before the first finding: nothing printed, `found` false. -/
def State.empty : State := ⟨[], false⟩

/-- The test `s.endsWith(p)`, used to describe rule texts. -/
def endsWith (s p : String) : Bool := p.data.isSuffixOf s.data

/-- The body of the rule loop of the member handlers, with the printed tag and
position as parameters. -/
def ruleStep (script : Option Nat) (pos : Loc) (full : String) (propertyName : JSVal)
    (rule : String) (s : State) : Result :=
  if startsWith rule "element." && startsWith full "element" then
    match orElse ((index (splitDot rule) 1).strictEq propertyName)
        (andAlso ((index (splitDot rule) 1).strictEq (.str "onevent"))
          (propertyName.callStartsWith "on")) with
    | .error e => ⟨s, some e⟩
    | .ok true => ⟨report ⟨rule, script, pos.line, pos.column, some full⟩ s, none⟩
    | .ok false => ⟨s, none⟩
  else if (JSVal.str rule).strictEq propertyName || full == rule then
    ⟨report ⟨rule, script, pos.line, pos.column, some full⟩ s, none⟩
  else ⟨s, none⟩

/-- Whether the rule loop of the member handlers prints a line for `rule` when
the property name is the string `p`: the loop's test, with `p.startsWith("on")`
evaluated (on a string it cannot throw). -/
def ruleFires (full p rule : String) : Bool :=
  if startsWith rule "element." && startsWith full "element" then
    (index (splitDot rule) 1).strictEq (.str p) ||
      ((index (splitDot rule) 1).strictEq (.str "onevent") && startsWith p "on")
  else (JSVal.str rule).strictEq (.str p) || full == rule

/-- A statement only ever adds lines to the console. -/
def LogGrows (f : State → Result) : Prop :=
  ∀ s, ∃ rest, (f s).state.log = s.log ++ rest

/-- The syntax tree of the script `element.onclick = f; document.cookie`: a file
holding a program of two expression statements. -/
def scenario : Node :=
  .other [.other [
    .other [.assignment
      (.member (.identifier "element" ⟨1, 0⟩) (.identifier "onclick" ⟨1, 8⟩) false ⟨1, 0⟩)
      (.identifier "f" ⟨1, 18⟩) ⟨1, 0⟩] ⟨1, 0⟩,
    .other [.member (.identifier "document" ⟨1, 21⟩) (.identifier "cookie" ⟨1, 30⟩) false
      ⟨1, 21⟩] ⟨1, 21⟩] ⟨1, 0⟩] ⟨1, 0⟩

/-- The test of the rule loop of the member handlers for one rule: the condition
under which a line is printed, or the exception its evaluation throws. -/
def ruleTest (full : String) (propertyName : JSVal) (rule : String) : Except JSError Bool :=
  if startsWith rule "element." && startsWith full "element" then
    orElse ((index (splitDot rule) 1).strictEq propertyName)
      (andAlso ((index (splitDot rule) 1).strictEq (.str "onevent"))
        (propertyName.callStartsWith "on"))
  else .ok ((JSVal.str rule).strictEq propertyName || full == rule)

/-- The quoted text of a finding line names a rule of the list: it is a rule
text, or, on a line without a matched expression, a rule text between `.` and
`()`. -/
def QuotesRule (rules : List String) (m : Match) : Prop :=
  m.quoted ∈ rules ∨ (m.expr = none ∧ ∃ r ∈ rules, m.quoted = "." ++ r ++ "()")

/-- Every finding line of the console satisfies `P`. -/
def AllMatches (P : Match → Prop) (s : State) : Prop :=
  ∀ m, Line.ruleMatch m ∈ s.log → P m

/-- The syntax tree of the script `foo.eval()`. -/
def methodCallScript : Node :=
  .other [.other [.other [.call
    (.member (.identifier "foo" ⟨1, 0⟩) (.identifier "eval" ⟨1, 4⟩) false ⟨1, 0⟩) []
    ⟨1, 0⟩] ⟨1, 0⟩] ⟨1, 0⟩] ⟨1, 0⟩

/-! ### Rule loading (the statement `rules = fs.readFileSync(...)...`) -/

/-- The code points `trim` strips: the white space and line terminator
characters of ECMAScript (tab, LF, VT, FF, CR, space, no-break space, the
space separators, LS, PS, and the byte order mark). -/
def isWhiteSpace (c : Char) : Bool :=
  [9, 10, 11, 12, 13, 32, 160, 5760, 8192, 8193, 8194, 8195, 8196, 8197, 8198, 8199, 8200,
    8201, 8202, 8232, 8233, 8239, 8287, 12288, 65279].contains c.toNat

/-- The method `line.trim()`. -/
def trim (line : String) : String :=
  ⟨(line.data.dropWhile isWhiteSpace).rdropWhile isWhiteSpace⟩

/-- Splitting a character sequence at every line feed. -/
def splitLineChars : List Char → List (List Char)
  | [] => [[]]
  | c :: cs =>
    if c = Char.ofNat 10 then [] :: splitLineChars cs
    else
      match splitLineChars cs with
      | [] => [[c]]
      | seg :: rest => (c :: seg) :: rest

/-- The expression `text.split("\n")`. -/
def splitLines (text : String) : List String := (splitLineChars text.data).map String.mk

/-- The rule list loaded from the text of the rule file:
`text.split("\n").map(line => line.trim()).filter(Boolean)`; a string is truthy
when it is not empty. -/
def loadRules (text : String) : List String :=
  ((splitLines text).map trim).filter fun line => (JSVal.str line).truthy

/-- A line that is empty or holds white space only. -/
def isBlank (line : String) : Bool := line.data.all isWhiteSpace

/-- The rule list as the specification words it: the lines of the file, without
the empty and white-space-only ones, each trimmed, in the order of the file. -/
def specRules (text : String) : List String :=
  ((splitLines text).filter fun line => !isBlank line).map trim

/-- A finding line. -/
def Line.isMatch : Line → Bool
  | .ruleMatch _ => true
  | _ => false

/-- The state of a scan before its closing statement: `found` is set exactly
when a finding line has been printed, and no closing line has been printed. -/
def FoundTracksLog (s : State) : Prop :=
  s.found = s.log.any Line.isMatch ∧ Line.noIssues ∉ s.log

/-- A console line without its position: what is left is the quoted text, the
unit tag and the matched expression. -/
def Line.erasePos : Line → Line
  | .ruleMatch m => .ruleMatch { m with line := 0, column := 0 }
  | x => x

/-- The syntax tree of the script `(element.onclick) = f`: the assignment
starts at the parenthesis, its left side one column later. -/
def parenthesizedAssignment : Node :=
  .other [.other [.other [.assignment
    (.member (.identifier "element" ⟨1, 1⟩) (.identifier "onclick" ⟨1, 9⟩) false ⟨1, 1⟩)
    (.identifier "f" ⟨1, 20⟩) ⟨1, 0⟩] ⟨1, 0⟩] ⟨1, 0⟩] ⟨1, 0⟩

/-- The syntax tree of the script `(foo.html)()`: the call starts at the
parenthesis, its callee one column later. -/
def parenthesizedCall : Node :=
  .other [.other [.other [.call
    (.member (.identifier "foo" ⟨1, 1⟩) (.identifier "html" ⟨1, 5⟩) false ⟨1, 1⟩) []
    ⟨1, 0⟩] ⟨1, 0⟩] ⟨1, 0⟩] ⟨1, 0⟩

/-! ## Helper lemmas -/

theorem Site.run_eq (site : Site) (rules : List String) (object prop : Node) (computed : Bool)
    (start : Loc) (s : State) :
    site.run rules object prop computed start s =
      forOf (ruleStep site.script (site.pos start) (fullAccess object prop) prop.propertyName)
        rules s := by
  cases site <;> rfl

theorem forOf_single {α : Type} (body : α → State → Result) (x : α) (s : State) :
    forOf body [x] s = body x s := by
  simp only [forOf]
  rcases h : body x s with ⟨s1, _ | e⟩ <;> simp [forOf]

theorem startsWith_iff (s p : String) : startsWith s p = true ↔ p.data <+: s.data := by
  simp [startsWith]

theorem strictEq_str (a b : String) : (JSVal.str a).strictEq (.str b) = true ↔ a = b := by
  simp [JSVal.strictEq]

theorem strictEq_str_left (a : String) (v : JSVal) :
    (JSVal.str a).strictEq v = true ↔ v = .str a := by
  cases v with
  | str s =>
    simp only [JSVal.strictEq, beq_iff_eq, JSVal.str.injEq]
    exact eq_comm
  | _ => simp [JSVal.strictEq]

theorem splitDotChars_head (l : List Char) :
    (splitDotChars l).head? = some (l.takeWhile fun c => decide (c ≠ '.')) := by
  induction l with
  | nil => simp [splitDotChars]
  | cons c cs ih =>
    by_cases hc : c = '.'
    · simp [splitDotChars, hc]
    · cases h : splitDotChars cs with
      | nil => simp [h] at ih
      | cons seg rest =>
        simp only [h, List.head?_cons, Option.some.injEq] at ih
        simp [splitDotChars, hc, h, ih]

theorem splitDotChars_append (pre l : List Char) (hpre : '.' ∉ pre) :
    splitDotChars (pre ++ '.' :: l) = pre :: splitDotChars l := by
  induction pre with
  | nil => simp [splitDotChars]
  | cons c cs ih =>
    have hc : c ≠ '.' := fun h => hpre (by simp [h])
    have hcs : '.' ∉ cs := fun h => hpre (by simp [h])
    simp [splitDotChars, hc, ih hcs]

/-- The second segment of `element.<p>` is `p` up to its first dot. -/
theorem index_splitDot_element (p : String) :
    index (splitDot ("element." ++ p)) 1 =
      .str ⟨p.data.takeWhile fun c => decide (c ≠ '.')⟩ := by
  have h : ("element." ++ p).data = "element".data ++ '.' :: p.data := by
    simp [String.data_append]
  have h1 := splitDotChars_head p.data
  cases h2 : splitDotChars p.data with
  | nil => simp [h2] at h1
  | cons seg rest =>
    simp only [h2, List.head?_cons, Option.some.injEq] at h1
    rw [index, splitDot, h, splitDotChars_append _ _ (by decide : '.' ∉ "element".data), h2]
    simp [h1]

theorem takeWhile_no_dot (l : List Char) (h : '.' ∉ l) :
    (l.takeWhile fun c => decide (c ≠ '.')) = l := by
  rw [List.takeWhile_eq_self_iff]
  intro c hc
  have : c ≠ '.' := fun e => h (e ▸ hc)
  simpa using this

theorem startsWith_element_dot (p : String) : startsWith ("element." ++ p) "element." = true := by
  rw [startsWith_iff, String.data_append]
  exact List.prefix_append _ _

theorem fullAccess_element (l : Loc) (prop : Node) :
    startsWith (fullAccess (.identifier "element" l) prop) "element" = true := by
  rw [startsWith_iff]
  simp only [fullAccess, Node.name, JSVal.toText, String.data_append, List.append_assoc]
  exact List.prefix_append _ _

theorem startsWith_elim (r p : String) (h : startsWith r p = true) : ∃ q : String, r = p ++ q := by
  rw [startsWith_iff] at h
  obtain ⟨t, ht⟩ := h
  refine ⟨⟨t⟩, ?_⟩
  apply String.ext
  simp [String.data_append, ht]

theorem forOf_noop {α : Type} (body : α → State → Result) (xs : List α)
    (h : ∀ x ∈ xs, ∀ s, body x s = ⟨s, none⟩) (s : State) : forOf body xs s = ⟨s, none⟩ := by
  induction xs generalizing s with
  | nil => rfl
  | cons x xs ih =>
    simp only [forOf]
    rw [h x (by simp)]
    exact ih (fun y hy => h y (by simp [hy])) s

/-- A rule that is not empty, does not end in a dot and does not start with
`element..` leaves a member expression with the empty property name alone. -/
theorem ruleStep_empty_name (script : Option Nat) (pos : Loc) (object prop : Node)
    (hp : prop.propertyName = .str "") (r : String) (hne : r ≠ "")
    (hend : endsWith r "." = false) (hdd : startsWith r "element.." = false) (s : State) :
    ruleStep script pos (fullAccess object prop) prop.propertyName r s = ⟨s, none⟩ := by
  have hfull : ¬ fullAccess object prop = r := by
    intro h
    have hdot : endsWith (fullAccess object prop) "." = true := by
      simp only [endsWith, fullAccess, hp, JSVal.toText, String.data_append,
        List.isSuffixOf_iff_suffix, List.append_nil]
      exact List.suffix_append _ _
    rw [h, hend] at hdot
    exact absurd hdot (by decide)
  have hr : ¬ r = "" := hne
  rw [hp]
  simp only [ruleStep]
  by_cases h1 : (startsWith r "element." && startsWith (fullAccess object prop) "element") = true
  · rw [if_pos h1]
    rw [Bool.and_eq_true] at h1
    obtain ⟨q, rfl⟩ := startsWith_elim _ _ h1.1
    rw [index_splitDot_element]
    have hq : ¬ (q.data.takeWhile fun c => decide (c ≠ '.')) = [] := by
      intro h
      cases hqd : q.data with
      | nil =>
        have hq0 : q = "" := String.ext hqd
        subst hq0
        exact absurd hend (by decide)
      | cons c cs =>
        rw [hqd] at h
        by_cases hc : c = '.'
        · subst hc
          have : startsWith ("element." ++ q) "element.." = true := by
            rw [startsWith_iff, String.data_append, hqd]
            exact ⟨cs, by simp⟩
          rw [this] at hdd
          exact absurd hdd (by decide)
        · simp [List.takeWhile, hc] at h
    have hs : (JSVal.str ⟨q.data.takeWhile fun c => decide (c ≠ '.')⟩).strictEq (.str "") = false := by
      rw [Bool.eq_false_iff]
      intro h
      rw [strictEq_str] at h
      exact hq (congrArg String.data h)
    have hon : startsWith "" "on" = false := by decide
    rw [hs]
    cases (JSVal.str ⟨q.data.takeWhile fun c => decide (c ≠ '.')⟩).strictEq (.str "onevent") <;>
      simp [orElse, andAlso, JSVal.callStartsWith, hon]
  · rw [if_neg h1]
    simp [JSVal.strictEq, hr, hfull]

theorem andThen_ok (s : State) (k : State → Result) : (Result.mk s none).andThen k = k s := rfl

theorem andThen_assoc (r : Result) (k1 k2 : State → Result) :
    (r.andThen k1).andThen k2 = r.andThen fun s => (k1 s).andThen k2 := by
  rcases r with ⟨s, _ | e⟩ <;> rfl

mutual
/-- A visitor whose handlers do nothing makes the walk do nothing. -/
theorem traverse_noop (v : Visitor) (hm : ∀ n s, v.MemberExpression n s = ⟨s, none⟩)
    (ha : ∀ n s, v.AssignmentExpression n s = ⟨s, none⟩)
    (hc : ∀ n s, v.CallExpression n s = ⟨s, none⟩) :
    ∀ (n : Node) (s : State), traverse v n s = ⟨s, none⟩
  | .identifier _ _, s => by simp [traverse]
  | .literal _ _, s => by simp [traverse]
  | .member o p c l, s => by
    simp [traverse, hm, andThen_ok, traverse_noop v hm ha hc o, traverse_noop v hm ha hc p]
  | .assignment lhs rhs l, s => by
    simp [traverse, ha, andThen_ok, traverse_noop v hm ha hc lhs, traverse_noop v hm ha hc rhs]
  | .call f args l, s => by
    simp [traverse, hc, andThen_ok, traverse_noop v hm ha hc f, traverseAll_noop v hm ha hc args]
  | .other kids _, s => by
    simp [traverse, traverseAll_noop v hm ha hc kids]
/-- The same for a list of children. -/
theorem traverseAll_noop (v : Visitor) (hm : ∀ n s, v.MemberExpression n s = ⟨s, none⟩)
    (ha : ∀ n s, v.AssignmentExpression n s = ⟨s, none⟩)
    (hc : ∀ n s, v.CallExpression n s = ⟨s, none⟩) :
    ∀ (ns : List Node) (s : State), traverseAll v ns s = ⟨s, none⟩
  | [], s => by simp [traverseAll]
  | n :: ns, s => by
    simp [traverseAll, andThen_ok, traverse_noop v hm ha hc n, traverseAll_noop v hm ha hc ns]
end

theorem MemberExpressionHtml_nil (idx : Nat) (n : Node) (s : State) :
    MemberExpressionHtml [] idx n s = ⟨s, none⟩ := by
  cases n <;> rfl

theorem MemberExpressionJs_nil (n : Node) (s : State) :
    MemberExpressionJs [] n s = ⟨s, none⟩ := by
  cases n <;> rfl

theorem AssignmentExpressionHtml_nil (idx : Nat) (n : Node) (s : State) :
    AssignmentExpressionHtml [] idx n s = ⟨s, none⟩ := by
  cases n with
  | assignment lhs rhs l => cases lhs <;> rfl
  | _ => rfl

theorem AssignmentExpressionJs_nil (n : Node) (s : State) :
    AssignmentExpressionJs [] n s = ⟨s, none⟩ := by
  cases n with
  | assignment lhs rhs l => cases lhs <;> rfl
  | _ => rfl

theorem CallExpressionHtml_nil (idx : Nat) (n : Node) (s : State) :
    CallExpressionHtml [] idx n s = ⟨s, none⟩ := by
  cases n with
  | call f args l => cases f <;> simp [CallExpressionHtml, includes]
  | _ => rfl

theorem CallExpressionJs_nil (n : Node) (s : State) :
    CallExpressionJs [] n s = ⟨s, none⟩ := by
  cases n with
  | call f args l => cases f <;> simp [CallExpressionJs, includes]
  | _ => rfl

theorem forEachScript_nil_rules (trees : List Node) (idx : Nat) (s : State) :
    forEachScript [] (trees.map .tree) idx s = ⟨s, none⟩ := by
  induction trees generalizing idx s with
  | nil => rfl
  | cons t ts ih =>
    simp only [List.map_cons, forEachScript]
    rw [traverse_noop (visitorHtml [] idx) (MemberExpressionHtml_nil idx)
      (AssignmentExpressionHtml_nil idx) (CallExpressionHtml_nil idx) t s, andThen_ok]
    exact ih _ _

theorem forEachScript_append (rules : List String) (a b : List Parsed) (idx : Nat) (s : State) :
    forEachScript rules (a ++ b) idx s =
      (forEachScript rules a idx s).andThen fun s1 => forEachScript rules b (idx + a.length) s1 := by
  induction a generalizing idx s with
  | nil => simp [forEachScript, andThen_ok]
  | cons u us ih =>
    cases u with
    | failure msg => simp [forEachScript, Result.andThen]
    | tree ast =>
      simp only [List.cons_append, forEachScript, andThen_assoc, List.length_cons]
      congr 1
      funext s1
      show forEachScript rules (us ++ b) (idx + 1) s1 = _
      rw [ih]
      congr 1
      funext s2
      congr 1
      omega

theorem ruleStep_str (script : Option Nat) (pos : Loc) (full p rule : String) (s : State) :
    ruleStep script pos full (.str p) rule s =
      if ruleFires full p rule then
        ⟨report ⟨rule, script, pos.line, pos.column, some full⟩ s, none⟩
      else ⟨s, none⟩ := by
  unfold ruleStep ruleFires
  by_cases h1 : (startsWith rule "element." && startsWith full "element") = true
  · rw [if_pos h1, if_pos h1]
    cases (index (splitDot rule) 1).strictEq (.str p) <;>
      cases (index (splitDot rule) 1).strictEq (.str "onevent") <;>
      cases h : startsWith p "on" <;>
      simp [orElse, andAlso, JSVal.callStartsWith, h]
  · rw [if_neg h1, if_neg h1]

/-- With a string property name the rule loop never throws: it prints one line
for each rule that fires, in rule order. -/
theorem forOf_ruleStep_str (script : Option Nat) (pos : Loc) (full p : String)
    (rules : List String) (s : State) :
    forOf (ruleStep script pos full (.str p)) rules s =
      ⟨⟨s.log ++ (rules.filter (ruleFires full p)).map fun r =>
          .ruleMatch ⟨r, script, pos.line, pos.column, some full⟩,
        s.found || rules.any (ruleFires full p)⟩, none⟩ := by
  induction rules generalizing s with
  | nil => simp [forOf]
  | cons r rs ih =>
    simp only [forOf, ruleStep_str]
    by_cases h : ruleFires full p r = true
    · simp [h, ih, report]
    · simp [h, ih]

theorem ruleStep_grows (script : Option Nat) (pos : Loc) (full : String) (v : JSVal)
    (rule : String) : LogGrows (ruleStep script pos full v rule) := by
  intro s
  unfold ruleStep
  split
  · split
    · exact ⟨[], by simp⟩
    · exact ⟨_, rfl⟩
    · exact ⟨[], by simp⟩
  · split
    · exact ⟨_, rfl⟩
    · exact ⟨[], by simp⟩

theorem forOf_grows {α : Type} (body : α → State → Result) (h : ∀ x, LogGrows (body x))
    (xs : List α) : LogGrows (forOf body xs) := by
  intro s
  induction xs generalizing s with
  | nil => exact ⟨[], by simp [forOf]⟩
  | cons x xs ih =>
    obtain ⟨r1, h1⟩ := h x s
    simp only [forOf]
    rcases hb : body x s with ⟨s1, _ | e⟩
    · rw [hb] at h1
      obtain ⟨r2, h2⟩ := ih s1
      exact ⟨r1 ++ r2, by simp only [h2]; simp only [] at h1; rw [h1, List.append_assoc]⟩
    · rw [hb] at h1
      exact ⟨r1, h1⟩

theorem andThen_grows (f k : State → Result) (hf : LogGrows f) (hk : LogGrows k) :
    LogGrows fun s => (f s).andThen k := by
  intro s
  obtain ⟨r1, h1⟩ := hf s
  rcases hb : f s with ⟨s1, _ | e⟩
  · rw [hb] at h1
    obtain ⟨r2, h2⟩ := hk s1
    refine ⟨r1 ++ r2, ?_⟩
    show ((f s).andThen k).state.log = _
    rw [hb, andThen_ok, h2]
    simp only [] at h1
    rw [h1, List.append_assoc]
  · rw [hb] at h1
    refine ⟨r1, ?_⟩
    show ((f s).andThen k).state.log = _
    rw [hb]
    exact h1

theorem visitorHtml_grows (rules : List String) (idx : Nat) (n : Node) :
    LogGrows ((visitorHtml rules idx).MemberExpression n) ∧
    LogGrows ((visitorHtml rules idx).AssignmentExpression n) ∧
    LogGrows ((visitorHtml rules idx).CallExpression n) := by
  refine ⟨?_, ?_, ?_⟩
  · cases n with
    | member o p c l => exact forOf_grows _ (fun r => ruleStep_grows _ l _ _ r) rules
    | _ => exact fun s => ⟨[], by simp [visitorHtml, MemberExpressionHtml]⟩
  · cases n with
    | assignment lhs rhs l =>
      cases lhs with
      | member o p c l1 => exact forOf_grows _ (fun r => ruleStep_grows _ l1 _ _ r) rules
      | _ => exact fun s => ⟨[], by simp [visitorHtml, AssignmentExpressionHtml]⟩
    | _ => exact fun s => ⟨[], by simp [visitorHtml, AssignmentExpressionHtml]⟩
  · cases n with
    | call f args l =>
      intro s
      refine ⟨List.drop s.log.length
        ((visitorHtml rules idx).CallExpression (.call f args l) s).state.log, ?_⟩
      cases f <;> simp only [visitorHtml, CallExpressionHtml, Node.isIdentifier, report] <;>
        split_ifs <;> simp
    | _ => exact fun s => ⟨[], by simp [visitorHtml, CallExpressionHtml]⟩

theorem visitorJs_grows (rules : List String) (n : Node) :
    LogGrows ((visitorJs rules).MemberExpression n) ∧
    LogGrows ((visitorJs rules).AssignmentExpression n) ∧
    LogGrows ((visitorJs rules).CallExpression n) := by
  refine ⟨?_, ?_, ?_⟩
  · cases n with
    | member o p c l => exact forOf_grows _ (fun r => ruleStep_grows _ l _ _ r) rules
    | _ => exact fun s => ⟨[], by simp [visitorJs, MemberExpressionJs]⟩
  · cases n with
    | assignment lhs rhs l =>
      cases lhs with
      | member o p c l1 => exact forOf_grows _ (fun r => ruleStep_grows _ l _ _ r) rules
      | _ => exact fun s => ⟨[], by simp [visitorJs, AssignmentExpressionJs]⟩
    | _ => exact fun s => ⟨[], by simp [visitorJs, AssignmentExpressionJs]⟩
  · cases n with
    | call f args l =>
      intro s
      refine ⟨List.drop s.log.length
        ((visitorJs rules).CallExpression (.call f args l) s).state.log, ?_⟩
      cases f <;> simp only [visitorJs, CallExpressionJs, Node.isIdentifier, report] <;>
        split_ifs <;> simp
    | _ => exact fun s => ⟨[], by simp [visitorJs, CallExpressionJs]⟩

mutual
/-- The walk only ever adds lines to the console when the handlers do. -/
theorem traverse_grows (v : Visitor) (hm : ∀ n, LogGrows (v.MemberExpression n))
    (ha : ∀ n, LogGrows (v.AssignmentExpression n)) (hc : ∀ n, LogGrows (v.CallExpression n)) :
    ∀ n : Node, LogGrows (traverse v n)
  | .identifier _ _ => fun s => ⟨[], by simp [traverse]⟩
  | .literal _ _ => fun s => ⟨[], by simp [traverse]⟩
  | .member o p c l => fun s => by
    rw [traverse]
    exact andThen_grows _ _ (hm _)
      (andThen_grows _ _ (traverse_grows v hm ha hc o) (traverse_grows v hm ha hc p)) s
  | .assignment lhs rhs l => fun s => by
    rw [traverse]
    exact andThen_grows _ _ (ha _)
      (andThen_grows _ _ (traverse_grows v hm ha hc lhs) (traverse_grows v hm ha hc rhs)) s
  | .call f args l => fun s => by
    rw [traverse]
    exact andThen_grows _ _ (hc _)
      (andThen_grows _ _ (traverse_grows v hm ha hc f) (traverseAll_grows v hm ha hc args)) s
  | .other kids _ => fun s => by
    rw [traverse]
    exact traverseAll_grows v hm ha hc kids s
/-- The same for a list of children. -/
theorem traverseAll_grows (v : Visitor) (hm : ∀ n, LogGrows (v.MemberExpression n))
    (ha : ∀ n, LogGrows (v.AssignmentExpression n)) (hc : ∀ n, LogGrows (v.CallExpression n)) :
    ∀ ns : List Node, LogGrows (traverseAll v ns)
  | [] => fun s => ⟨[], by simp [traverseAll]⟩
  | n :: ns => fun s => by
    rw [traverseAll]
    exact andThen_grows _ _ (traverse_grows v hm ha hc n) (traverseAll_grows v hm ha hc ns) s
end

theorem includes_str (rules : List String) (n : String) :
    includes rules (.str n) = decide (n ∈ rules) := by
  induction rules with
  | nil => simp [includes]
  | cons r rs ih =>
    simp only [includes, List.any_cons] at ih ⊢
    rw [ih]
    by_cases h : r = n
    · simp [h, JSVal.strictEq]
    · have h2 : ¬ n = r := fun e => h e.symm
      simp [h, h2, JSVal.strictEq]

theorem includes_not_str (rules : List String) (v : JSVal) (h : ∀ t, v ≠ .str t) :
    includes rules v = false := by
  induction rules with
  | nil => simp [includes]
  | cons r rs ih =>
    simp only [includes, List.any_cons] at ih ⊢
    rw [ih]
    cases v <;> simp [JSVal.strictEq] at h ⊢

theorem ruleStep_eq_test (script : Option Nat) (pos : Loc) (full : String) (v : JSVal)
    (rule : String) (s : State) :
    ruleStep script pos full v rule s =
      match ruleTest full v rule with
      | .error e => ⟨s, some e⟩
      | .ok true => ⟨report ⟨rule, script, pos.line, pos.column, some full⟩ s, none⟩
      | .ok false => ⟨s, none⟩ := by
  unfold ruleStep ruleTest
  by_cases h1 : (startsWith rule "element." && startsWith full "element") = true
  · rw [if_pos h1, if_pos h1]
  · rw [if_neg h1, if_neg h1]
    cases ((JSVal.str rule).strictEq v || full == rule) <;> simp

/-- Every line the rule loop adds quotes a rule of the list whose test held. -/
theorem forOf_ruleStep_lines (script : Option Nat) (pos : Loc) (full : String) (v : JSVal)
    (rules : List String) (s : State) :
    ∀ x ∈ (forOf (ruleStep script pos full v) rules s).state.log,
      x ∈ s.log ∨ ∃ r ∈ rules, x = .ruleMatch ⟨r, script, pos.line, pos.column, some full⟩ ∧
        ruleTest full v r = .ok true := by
  induction rules generalizing s with
  | nil => intro x hx; exact Or.inl hx
  | cons r rs ih =>
    intro x hx
    simp only [forOf, ruleStep_eq_test] at hx
    rcases ht : ruleTest full v r with e | b
    · rw [ht] at hx
      exact Or.inl hx
    · rw [ht] at hx
      cases b with
      | false =>
        rcases ih s x hx with h | ⟨r1, hr1, h⟩
        · exact Or.inl h
        · exact Or.inr ⟨r1, List.mem_cons_of_mem _ hr1, h⟩
      | true =>
        rcases ih _ x hx with h | ⟨r1, hr1, h⟩
        · simp only [report, List.mem_append, List.mem_singleton] at h
          rcases h with h | h
          · exact Or.inl h
          · exact Or.inr ⟨r, List.mem_cons_self _ _, h, ht⟩
        · exact Or.inr ⟨r1, List.mem_cons_of_mem _ hr1, h⟩

theorem andThen_preserves (I : State → Prop) (r : Result) (k : State → Result)
    (hr : I r.state) (hk : ∀ s, I s → I (k s).state) : I (r.andThen k).state := by
  rcases r with ⟨s, _ | e⟩
  · exact hk s hr
  · exact hr

mutual
/-- A property of the state that every handler keeps is kept by the walk. -/
theorem traverse_preserves (I : State → Prop) (v : Visitor)
    (hm : ∀ n s, I s → I (v.MemberExpression n s).state)
    (ha : ∀ n s, I s → I (v.AssignmentExpression n s).state)
    (hc : ∀ n s, I s → I (v.CallExpression n s).state) :
    ∀ (n : Node) (s : State), I s → I (traverse v n s).state
  | .identifier _ _, s, hs => by simpa [traverse] using hs
  | .literal _ _, s, hs => by simpa [traverse] using hs
  | .member o p c l, s, hs => by
    rw [traverse]
    exact andThen_preserves I _ _ (hm _ s hs) fun s1 h1 =>
      andThen_preserves I _ _ (traverse_preserves I v hm ha hc o s1 h1) fun s2 h2 =>
        traverse_preserves I v hm ha hc p s2 h2
  | .assignment lhs rhs l, s, hs => by
    rw [traverse]
    exact andThen_preserves I _ _ (ha _ s hs) fun s1 h1 =>
      andThen_preserves I _ _ (traverse_preserves I v hm ha hc lhs s1 h1) fun s2 h2 =>
        traverse_preserves I v hm ha hc rhs s2 h2
  | .call f args l, s, hs => by
    rw [traverse]
    exact andThen_preserves I _ _ (hc _ s hs) fun s1 h1 =>
      andThen_preserves I _ _ (traverse_preserves I v hm ha hc f s1 h1) fun s2 h2 =>
        traverseAll_preserves I v hm ha hc args s2 h2
  | .other kids _, s, hs => by
    rw [traverse]
    exact traverseAll_preserves I v hm ha hc kids s hs
/-- The same for a list of children. -/
theorem traverseAll_preserves (I : State → Prop) (v : Visitor)
    (hm : ∀ n s, I s → I (v.MemberExpression n s).state)
    (ha : ∀ n s, I s → I (v.AssignmentExpression n s).state)
    (hc : ∀ n s, I s → I (v.CallExpression n s).state) :
    ∀ (ns : List Node) (s : State), I s → I (traverseAll v ns s).state
  | [], s, hs => by simpa [traverseAll] using hs
  | n :: ns, s, hs => by
    rw [traverseAll]
    exact andThen_preserves I _ _ (traverse_preserves I v hm ha hc n s hs) fun s1 h1 =>
      traverseAll_preserves I v hm ha hc ns s1 h1
end

theorem forEachScript_preserves (I : State → Prop) (rules : List String)
    (hv : ∀ idx (n : Node) s, I s → I (traverse (visitorHtml rules idx) n s).state)
    (units : List Parsed) (idx : Nat) (s : State) (hs : I s) :
    I (forEachScript rules units idx s).state := by
  induction units generalizing idx s with
  | nil => exact hs
  | cons u us ih =>
    cases u with
    | failure msg => exact hs
    | tree ast =>
      rw [forEachScript]
      exact andThen_preserves I _ _ (hv idx ast s hs) fun s1 h1 => ih (idx + 1) s1 h1

theorem includes_elim (rules : List String) (v : JSVal) (h : includes rules v = true) :
    ∃ r ∈ rules, v = .str r := by
  simp only [includes, List.any_eq_true] at h
  obtain ⟨r, hr, he⟩ := h
  exact ⟨r, hr, (strictEq_str_left r v).1 he⟩

/-- The lines a member handler adds at a site quote a rule whose test held. -/
theorem Site.run_lines (site : Site) (rules : List String) (object prop : Node)
    (computed : Bool) (start : Loc) (s : State) :
    ∀ x ∈ (site.run rules object prop computed start s).state.log,
      x ∈ s.log ∨ ∃ r ∈ rules, x = site.line r object prop start ∧
        ruleTest (fullAccess object prop) prop.propertyName r = .ok true := by
  rw [Site.run_eq]
  exact forOf_ruleStep_lines _ _ _ _ rules s

/-- The lines the call handler of the HTML branch adds for a method call. -/
theorem methodCall_lines_html (rules : List String) (idx : Nat) (o p : Node) (c : Bool)
    (cl l : Loc) (args : List Node) (s : State) :
    ∀ x ∈ (CallExpressionHtml rules idx (.call (.member o p c cl) args l) s).state.log,
      x ∈ s.log ∨ ∃ r ∈ rules, p.name.or p.value = .str r ∧
        x = .ruleMatch ⟨"." ++ r ++ "()", some (idx + 1), cl.line, cl.column, none⟩ := by
  intro x hx
  simp only [CallExpressionHtml, Node.isIdentifier, Bool.false_and] at hx
  by_cases h : includes rules (p.name.or p.value) = true
  · obtain ⟨r, hr, he⟩ := includes_elim _ _ h
    simp only [h, if_true, report, List.mem_append, List.mem_singleton] at hx
    rcases hx with hx | hx
    · exact Or.inl (by simpa using hx)
    · exact Or.inr ⟨r, hr, he, by rw [hx, he]; rfl⟩
  · simp only [h] at hx
    exact Or.inl (by simpa using hx)

/-- The lines the call handler of the JS branch adds for a method call. -/
theorem methodCall_lines_js (rules : List String) (o p : Node) (c : Bool)
    (cl l : Loc) (args : List Node) (s : State) :
    ∀ x ∈ (CallExpressionJs rules (.call (.member o p c cl) args l) s).state.log,
      x ∈ s.log ∨ ∃ r ∈ rules, p.name.or p.value = .str r ∧
        x = .ruleMatch ⟨"." ++ r ++ "()", none, l.line, l.column, none⟩ := by
  intro x hx
  simp only [CallExpressionJs, Node.isIdentifier, Bool.false_and] at hx
  by_cases h : includes rules (p.name.or p.value) = true
  · obtain ⟨r, hr, he⟩ := includes_elim _ _ h
    simp only [h, if_true, report, List.mem_append, List.mem_singleton] at hx
    rcases hx with hx | hx
    · exact Or.inl (by simpa using hx)
    · exact Or.inr ⟨r, hr, he, by rw [hx, he]; rfl⟩
  · simp only [h] at hx
    exact Or.inl (by simpa using hx)

theorem adds_preserves (P : Match → Prop) (f : State → Result) (s : State)
    (h : ∀ x ∈ (f s).state.log, x ∈ s.log ∨ ∃ m, x = .ruleMatch m ∧ P m)
    (hs : AllMatches P s) : AllMatches P (f s).state := by
  intro m hm
  rcases h _ hm with h1 | ⟨m1, h1, h2⟩
  · exact hs m h1
  · cases h1
    exact h2

theorem identifierCall_html (rules : List String) (idx : Nat) (n : String) (nl l : Loc)
    (args : List Node) (s : State) :
    CallExpressionHtml rules idx (.call (.identifier n nl) args l) s =
      (if n ∈ rules then ⟨report ⟨n, some (idx + 1), l.line, l.column, none⟩ s, none⟩
        else ⟨s, none⟩) := by
  by_cases h : n ∈ rules <;>
    simp [CallExpressionHtml, Node.isIdentifier, Node.name, includes_str, JSVal.toText, h]

theorem identifierCall_js (rules : List String) (n : String) (nl l : Loc)
    (args : List Node) (s : State) :
    CallExpressionJs rules (.call (.identifier n nl) args l) s =
      (if n ∈ rules then ⟨report ⟨n, none, l.line, l.column, none⟩ s, none⟩
        else ⟨s, none⟩) := by
  by_cases h : n ∈ rules <;>
    simp [CallExpressionJs, Node.isIdentifier, Node.name, includes_str, JSVal.toText, h]

theorem report_preserves (P : Match → Prop) (m : Match) (s : State) (hm : P m)
    (hs : AllMatches P s) : AllMatches P (report m s) := by
  intro m1 h1
  simp only [report, List.mem_append, List.mem_singleton, Line.ruleMatch.injEq] at h1
  rcases h1 with h1 | h1
  · exact hs m1 h1
  · rw [h1]
    exact hm

theorem Site.run_quotes (site : Site) (rules : List String) (object prop : Node)
    (computed : Bool) (start : Loc) (s : State) (hs : AllMatches (QuotesRule rules) s) :
    AllMatches (QuotesRule rules) (site.run rules object prop computed start s).state := by
  refine adds_preserves _ (site.run rules object prop computed start) s ?_ hs
  intro x hx
  rcases Site.run_lines site rules object prop computed start s x hx with h | ⟨r, hr, h, _⟩
  · exact Or.inl h
  · exact Or.inr ⟨_, h, Or.inl hr⟩

theorem visitorHtml_quotes (rules : List String) (idx : Nat) (n : Node) (s : State)
    (hs : AllMatches (QuotesRule rules) s) :
    AllMatches (QuotesRule rules) ((visitorHtml rules idx).MemberExpression n s).state ∧
    AllMatches (QuotesRule rules) ((visitorHtml rules idx).AssignmentExpression n s).state ∧
    AllMatches (QuotesRule rules) ((visitorHtml rules idx).CallExpression n s).state := by
  refine ⟨?_, ?_, ?_⟩
  · cases n with
    | member o p c l => exact Site.run_quotes (.accessHtml idx) rules o p c l s hs
    | _ => exact hs
  · cases n with
    | assignment lhs rhs l =>
      cases lhs with
      | member o p c l1 => exact Site.run_quotes (.assignHtml idx rhs l) rules o p c l1 s hs
      | _ => exact hs
    | _ => exact hs
  · cases n with
    | call f args l =>
      cases f with
      | identifier name nl =>
        show AllMatches _ (CallExpressionHtml rules idx _ s).state
        rw [identifierCall_html]
        by_cases h : name ∈ rules
        · rw [if_pos h]
          exact report_preserves _ _ _ (Or.inl h) hs
        · rw [if_neg h]
          exact hs
      | member o p c cl =>
        refine adds_preserves _ (CallExpressionHtml rules idx (.call (.member o p c cl) args l))
          s ?_ hs
        intro x hx
        rcases methodCall_lines_html rules idx o p c cl l args s x hx with h | ⟨r, hr, _, h⟩
        · exact Or.inl h
        · exact Or.inr ⟨_, h, Or.inr ⟨rfl, r, hr, rfl⟩⟩
      | _ => exact hs
    | _ => exact hs

theorem visitorJs_quotes (rules : List String) (n : Node) (s : State)
    (hs : AllMatches (QuotesRule rules) s) :
    AllMatches (QuotesRule rules) ((visitorJs rules).MemberExpression n s).state ∧
    AllMatches (QuotesRule rules) ((visitorJs rules).AssignmentExpression n s).state ∧
    AllMatches (QuotesRule rules) ((visitorJs rules).CallExpression n s).state := by
  refine ⟨?_, ?_, ?_⟩
  · cases n with
    | member o p c l => exact Site.run_quotes .accessJs rules o p c l s hs
    | _ => exact hs
  · cases n with
    | assignment lhs rhs l =>
      cases lhs with
      | member o p c l1 => exact Site.run_quotes (.assignJs rhs l) rules o p c l1 s hs
      | _ => exact hs
    | _ => exact hs
  · cases n with
    | call f args l =>
      cases f with
      | identifier name nl =>
        show AllMatches _ (CallExpressionJs rules _ s).state
        rw [identifierCall_js]
        by_cases h : name ∈ rules
        · rw [if_pos h]
          exact report_preserves _ _ _ (Or.inl h) hs
        · rw [if_neg h]
          exact hs
      | member o p c cl =>
        refine adds_preserves _ (CallExpressionJs rules (.call (.member o p c cl) args l))
          s ?_ hs
        intro x hx
        rcases methodCall_lines_js rules o p c cl l args s x hx with h | ⟨r, hr, _, h⟩
        · exact Or.inl h
        · exact Or.inr ⟨_, h, Or.inr ⟨rfl, r, hr, rfl⟩⟩
      | _ => exact hs
    | _ => exact hs

/-- A property of the state that every handler of both branches keeps, and that
holds after the header line and is not disturbed by the closing line, holds at
the end of `processContent`. -/
theorem processContent_preserves (I : State → Prop) (rulesPath : String) (rules : List String)
    (h0 : I ⟨[.scanning rulesPath], false⟩)
    (hH : ∀ idx n s, I s →
      I ((visitorHtml rules idx).MemberExpression n s).state ∧
      I ((visitorHtml rules idx).AssignmentExpression n s).state ∧
      I ((visitorHtml rules idx).CallExpression n s).state)
    (hJ : ∀ n s, I s →
      I ((visitorJs rules).MemberExpression n s).state ∧
      I ((visitorJs rules).AssignmentExpression n s).state ∧
      I ((visitorJs rules).CallExpression n s).state)
    (hf : ∀ s, I s → I (finish s).state) (content : Content) :
    I (processContent rulesPath rules content).state := by
  cases content with
  | html scripts =>
    rw [processContent]
    refine andThen_preserves I _ _ ?_ hf
    refine forEachScript_preserves I rules (fun idx n s hs => ?_) scripts 0 _ h0
    exact traverse_preserves I _ (fun n s h => (hH idx n s h).1) (fun n s h => (hH idx n s h).2.1)
      (fun n s h => (hH idx n s h).2.2) n s hs
  | js script =>
    cases script with
    | failure msg => exact h0
    | tree ast =>
      rw [processContent]
      refine andThen_preserves I _ _ ?_ hf
      exact traverse_preserves I _ (fun n s h => (hJ n s h).1) (fun n s h => (hJ n s h).2.1)
        (fun n s h => (hJ n s h).2.2) ast _ h0

theorem trim_data_nil (l : List Char) :
    (l.dropWhile isWhiteSpace).rdropWhile isWhiteSpace = [] ↔
      ∀ c ∈ l, isWhiteSpace c = true := by
  rw [List.rdropWhile_eq_nil_iff]
  constructor
  · intro h
    have hnil : l.dropWhile isWhiteSpace = [] := by
      by_contra hne
      have h1 := List.head_dropWhile_not isWhiteSpace l hne
      have h2 := h _ (List.head_mem hne)
      rw [h1] at h2
      exact absurd h2 (by decide)
    exact List.dropWhile_eq_nil_iff.1 hnil
  · intro h x hx
    exact h x ((List.dropWhile_suffix isWhiteSpace).subset hx)

theorem trim_truthy (line : String) : (JSVal.str (trim line)).truthy = !isBlank line := by
  have h := trim_data_nil line.data
  by_cases hb : isBlank line = true
  · have h1 : trim line = "" := String.ext (h.2 (by simpa [isBlank] using hb))
    simp [JSVal.truthy, h1, hb]
  · have h1 : ¬ trim line = "" := by
      intro e
      apply hb
      have e2 : (trim line).data = [] := by rw [e]
      simpa [isBlank] using h.1 e2
    simp [JSVal.truthy, h1, hb]

theorem trim_head (line : String) (c : Char) (h : (trim line).data.head? = some c) :
    isWhiteSpace c = false := by
  have hne : (trim line).data ≠ [] := by
    intro e
    rw [e] at h
    simp at h
  have hpre : (trim line).data <+: line.data.dropWhile isWhiteSpace :=
    List.rdropWhile_prefix _ _
  have hd := hpre.head hne
  rw [List.head?_eq_head hne] at h
  cases h
  rw [hd]
  exact List.head_dropWhile_not isWhiteSpace _ _

theorem trim_last (line : String) (c : Char) (h : (trim line).data.getLast? = some c) :
    isWhiteSpace c = false := by
  have hne : (trim line).data ≠ [] := by
    intro e
    rw [e] at h
    simp at h
  rw [List.getLast?_eq_getLast _ hne] at h
  cases h
  have := List.rdropWhile_last_not isWhiteSpace (line.data.dropWhile isWhiteSpace) hne
  simpa using this

theorem ruleStep_keeps (I : State → Prop) (hrep : ∀ m s, I s → I (report m s))
    (script : Option Nat) (pos : Loc) (full : String) (v : JSVal) (rule : String) (s : State)
    (hs : I s) : I (ruleStep script pos full v rule s).state := by
  rw [ruleStep_eq_test]
  split
  · exact hs
  · exact hrep _ _ hs
  · exact hs

theorem forOf_preserves {α : Type} (I : State → Prop) (body : α → State → Result)
    (h : ∀ x s, I s → I (body x s).state) (xs : List α) (s : State) (hs : I s) :
    I (forOf body xs s).state := by
  induction xs generalizing s with
  | nil => exact hs
  | cons x xs ih =>
    have hx := h x s hs
    simp only [forOf]
    rcases hb : body x s with ⟨s1, _ | e⟩
    · rw [hb] at hx
      exact ih s1 hx
    · rw [hb] at hx
      exact hx

theorem Site.run_keeps (I : State → Prop) (hrep : ∀ m s, I s → I (report m s)) (site : Site)
    (rules : List String) (object prop : Node) (computed : Bool) (start : Loc) (s : State)
    (hs : I s) : I (site.run rules object prop computed start s).state := by
  rw [Site.run_eq]
  exact forOf_preserves I _ (fun r s1 h1 => ruleStep_keeps I hrep _ _ _ _ r s1 h1) rules s hs

theorem visitorHtml_keeps (I : State → Prop) (hrep : ∀ m s, I s → I (report m s))
    (rules : List String) (idx : Nat) (n : Node) (s : State) (hs : I s) :
    I ((visitorHtml rules idx).MemberExpression n s).state ∧
    I ((visitorHtml rules idx).AssignmentExpression n s).state ∧
    I ((visitorHtml rules idx).CallExpression n s).state := by
  refine ⟨?_, ?_, ?_⟩
  · cases n with
    | member o p c l => exact Site.run_keeps I hrep (.accessHtml idx) rules o p c l s hs
    | _ => exact hs
  · cases n with
    | assignment lhs rhs l =>
      cases lhs with
      | member o p c l1 => exact Site.run_keeps I hrep (.assignHtml idx rhs l) rules o p c l1 s hs
      | _ => exact hs
    | _ => exact hs
  · cases n with
    | call f args l =>
      cases f <;> simp only [visitorHtml, CallExpressionHtml, Node.isIdentifier] <;>
        split_ifs <;> first | exact hs | exact hrep _ _ hs | exact hrep _ _ (hrep _ _ hs)
    | _ => exact hs

theorem visitorJs_keeps (I : State → Prop) (hrep : ∀ m s, I s → I (report m s))
    (rules : List String) (n : Node) (s : State) (hs : I s) :
    I ((visitorJs rules).MemberExpression n s).state ∧
    I ((visitorJs rules).AssignmentExpression n s).state ∧
    I ((visitorJs rules).CallExpression n s).state := by
  refine ⟨?_, ?_, ?_⟩
  · cases n with
    | member o p c l => exact Site.run_keeps I hrep .accessJs rules o p c l s hs
    | _ => exact hs
  · cases n with
    | assignment lhs rhs l =>
      cases lhs with
      | member o p c l1 => exact Site.run_keeps I hrep (.assignJs rhs l) rules o p c l1 s hs
      | _ => exact hs
    | _ => exact hs
  · cases n with
    | call f args l =>
      cases f <;> simp only [visitorJs, CallExpressionJs, Node.isIdentifier] <;>
        split_ifs <;> first | exact hs | exact hrep _ _ hs | exact hrep _ _ (hrep _ _ hs)
    | _ => exact hs

/-- Every scan is its walk followed by the closing statement, and a property of
the state that `report` keeps holds when the walk ends. -/
theorem processContent_before_finish (I : State → Prop) (hrep : ∀ m s, I s → I (report m s))
    (rulesPath : String) (rules : List String) (h0 : I ⟨[.scanning rulesPath], false⟩)
    (content : Content) :
    ∃ r : Result, I r.state ∧ processContent rulesPath rules content = r.andThen finish := by
  cases content with
  | html scripts =>
    refine ⟨forEachScript rules scripts 0 ⟨[.scanning rulesPath], false⟩, ?_, rfl⟩
    refine forEachScript_preserves I rules (fun idx n s hs => ?_) scripts 0 _ h0
    exact traverse_preserves I _ (fun n s h => (visitorHtml_keeps I hrep rules idx n s h).1)
      (fun n s h => (visitorHtml_keeps I hrep rules idx n s h).2.1)
      (fun n s h => (visitorHtml_keeps I hrep rules idx n s h).2.2) n s hs
  | js script =>
    cases script with
    | failure msg => exact ⟨⟨⟨[.scanning rulesPath], false⟩, some (.parseFailure msg)⟩, h0, rfl⟩
    | tree ast =>
      refine ⟨traverse (visitorJs rules) ast ⟨[.scanning rulesPath], false⟩, ?_, rfl⟩
      exact traverse_preserves I _ (fun n s h => (visitorJs_keeps I hrep rules n s h).1)
        (fun n s h => (visitorJs_keeps I hrep rules n s h).2.1)
        (fun n s h => (visitorJs_keeps I hrep rules n s h).2.2) ast _ h0

theorem report_foundTracksLog (m : Match) (s : State) (hs : FoundTracksLog s) :
    FoundTracksLog (report m s) := by
  refine ⟨?_, ?_⟩
  · simp [report, Line.isMatch]
  · intro h
    simp only [report, List.mem_append, List.mem_singleton] at h
    rcases h with h | h
    · exact hs.2 h
    · cases h

/-- With a string property name, the lines a member handler adds at a site are
the rules that fire, one line per list position, in rule order. -/
theorem Site.run_str (site : Site) (rules : List String) (object prop : Node) (computed : Bool)
    (start : Loc) (p : String) (hp : prop.propertyName = .str p) (s : State) :
    site.run rules object prop computed start s =
      ⟨⟨s.log ++ (rules.filter (ruleFires (fullAccess object prop) p)).map fun r =>
          site.line r object prop start,
        s.found || rules.any (ruleFires (fullAccess object prop) p)⟩, none⟩ := by
  rw [Site.run_eq, hp, forOf_ruleStep_str]
  rfl

/-- With a string property name, two rule lists that are permutations of each
other give the same set of added lines. -/
theorem Site.run_perm (site : Site) (rules1 rules2 : List String) (hperm : rules1.Perm rules2)
    (object prop : Node) (computed : Bool) (start : Loc) (p : String)
    (hp : prop.propertyName = .str p) (s : State) (x : Line) :
    x ∈ (site.run rules1 object prop computed start s).state.log ↔
      x ∈ (site.run rules2 object prop computed start s).state.log := by
  rw [Site.run_str site rules1 object prop computed start p hp,
    Site.run_str site rules2 object prop computed start p hp]
  have h := ((hperm.filter (ruleFires (fullAccess object prop) p)).map fun r =>
    site.line r object prop start).mem_iff (a := x)
  simp only [List.mem_append, h]

/-- The rule loop run with two different printed positions prints the same
quoted texts and matched expressions and ends the same way. -/
theorem forOf_ruleStep_erasePos (script : Option Nat) (pos1 pos2 : Loc) (full : String)
    (v : JSVal) (rules : List String) (s1 s2 : State)
    (hl : s1.log.map Line.erasePos = s2.log.map Line.erasePos) (hf : s1.found = s2.found) :
    (forOf (ruleStep script pos1 full v) rules s1).error =
      (forOf (ruleStep script pos2 full v) rules s2).error ∧
    (forOf (ruleStep script pos1 full v) rules s1).state.found =
      (forOf (ruleStep script pos2 full v) rules s2).state.found ∧
    (forOf (ruleStep script pos1 full v) rules s1).state.log.map Line.erasePos =
      (forOf (ruleStep script pos2 full v) rules s2).state.log.map Line.erasePos := by
  induction rules generalizing s1 s2 with
  | nil => exact ⟨rfl, hf, hl⟩
  | cons r rs ih =>
    simp only [forOf, ruleStep_eq_test]
    rcases ruleTest full v r with e | b
    · exact ⟨rfl, hf, hl⟩
    · cases b with
      | false => exact ih s1 s2 hl hf
      | true =>
        refine ih _ _ ?_ rfl
        simp [report, hl, Line.erasePos]

/-- A key that is neither an identifier nor a literal has neither a `name` nor a
`value`, so the extracted property name is the empty string. -/
theorem propertyName_of_unnamed (key : Node) (h1 : key.isIdentifier = false)
    (h2 : key.isLiteral = false) : key.propertyName = .str "" := by
  cases key <;>
    simp [Node.isIdentifier, Node.isLiteral] at h1 h2 <;>
    simp [Node.propertyName, Node.name, Node.value, JSVal.or, JSVal.truthy, JSVal.nullish]

/-- The lines the call handler of the HTML branch adds for a call of an
identifier. -/
theorem identifierCall_lines_html (rules : List String) (idx : Nat) (n : String) (nl l : Loc)
    (args : List Node) (s : State) :
    ∀ x ∈ (CallExpressionHtml rules idx (.call (.identifier n nl) args l) s).state.log,
      x ∈ s.log ∨
        (n ∈ rules ∧ x = .ruleMatch ⟨n, some (idx + 1), l.line, l.column, none⟩) := by
  intro x hx
  rw [identifierCall_html] at hx
  by_cases h : n ∈ rules
  · rw [if_pos h] at hx
    simp only [report, List.mem_append, List.mem_singleton] at hx
    rcases hx with hx | hx
    · exact Or.inl hx
    · exact Or.inr ⟨h, hx⟩
  · rw [if_neg h] at hx
    exact Or.inl hx

/-- The lines the call handler of the JS branch adds for a call of an
identifier. -/
theorem identifierCall_lines_js (rules : List String) (n : String) (nl l : Loc)
    (args : List Node) (s : State) :
    ∀ x ∈ (CallExpressionJs rules (.call (.identifier n nl) args l) s).state.log,
      x ∈ s.log ∨ (n ∈ rules ∧ x = .ruleMatch ⟨n, none, l.line, l.column, none⟩) := by
  intro x hx
  rw [identifierCall_js] at hx
  by_cases h : n ∈ rules
  · rw [if_pos h] at hx
    simp only [report, List.mem_append, List.mem_singleton] at hx
    rcases hx with hx | hx
    · exact Or.inl hx
    · exact Or.inr ⟨h, hx⟩
  · rw [if_neg h] at hx
    exact Or.inl hx

/-! ## The claims -/

/-- C1 (counterexample): with the rule `element.style.color`, the access
`element["style.color"]` (property name equal to the text after `element.`)
prints nothing, and the access `element.style` (a different property name)
prints a finding. -/
theorem element_exact_dotted_counterexample :
    MemberExpressionHtml ["element.style.color"] 0
        (.member (.identifier "element" ⟨1, 0⟩) (.literal (.str "style.color") ⟨1, 8⟩) true ⟨1, 0⟩)
        State.empty = ⟨State.empty, none⟩ ∧
    MemberExpressionHtml ["element.style.color"] 0
        (.member (.identifier "element" ⟨1, 0⟩) (.identifier "style" ⟨1, 8⟩) false ⟨1, 0⟩)
        State.empty =
      ⟨⟨[.ruleMatch ⟨"element.style.color", some 1, 1, 0, some "element.style"⟩], true⟩, none⟩ := by
  constructor <;> decide

/-- C1 (amended): for a rule `element.<p>` where `p` contains no dot and is not
`onevent`, and a member expression whose object is the identifier `element`,
each site prints exactly one finding when the property name is `p` and nothing
when it is anything else; no exception is thrown. -/
theorem element_exact_fires_iff (site : Site) (p : String) (l : Loc) (prop : Node)
    (computed : Bool) (start : Loc) (hdot : '.' ∉ p.data) (hp : p ≠ "onevent") :
    site.run ["element." ++ p] (.identifier "element" l) prop computed start State.empty =
      if prop.propertyName = .str p then
        ⟨⟨[site.line ("element." ++ p) (.identifier "element" l) prop start], true⟩, none⟩
      else ⟨State.empty, none⟩ := by
  rw [Site.run_eq, forOf_single]
  have hseg : index (splitDot ("element." ++ p)) 1 = .str p := by
    rw [index_splitDot_element, takeWhile_no_dot _ hdot]
  have hon : (JSVal.str p).strictEq (.str "onevent") = false := by
    rw [Bool.eq_false_iff]
    intro h
    exact hp ((strictEq_str _ _).1 h)
  simp only [ruleStep, startsWith_element_dot, fullAccess_element, Bool.and_self, if_true, hseg,
    hon, andAlso]
  by_cases h : prop.propertyName = .str p
  · simp [h, JSVal.strictEq, orElse, report, State.empty, Site.line]
  · have h1 : (JSVal.str p).strictEq prop.propertyName = false := by
      rw [Bool.eq_false_iff]
      exact fun e => h ((strictEq_str_left _ _).1 e)
    simp [h1, h, orElse]

/-- C1 (witness): the rule `element.innerHTML` on the access `element.innerHTML` in the
JS branch. -/
theorem element_exact_fires_iff_witness :
    '.' ∉ "innerHTML".data ∧ "innerHTML" ≠ "onevent" ∧
    Site.accessJs.run ["element." ++ "innerHTML"] (.identifier "element" ⟨2, 4⟩)
        (.identifier "innerHTML" ⟨2, 12⟩) false ⟨2, 4⟩ State.empty =
      if (Node.identifier "innerHTML" ⟨2, 12⟩).propertyName = .str "innerHTML" then
        ⟨⟨[Site.accessJs.line ("element." ++ "innerHTML") (.identifier "element" ⟨2, 4⟩)
          (.identifier "innerHTML" ⟨2, 12⟩) ⟨2, 4⟩], true⟩, none⟩
      else ⟨State.empty, none⟩ :=
  ⟨by decide, by decide,
    element_exact_fires_iff Site.accessJs "innerHTML" ⟨2, 4⟩ (.identifier "innerHTML" ⟨2, 12⟩)
      false ⟨2, 4⟩ (by decide) (by decide)⟩

/-- C3: a rule `t` that does not start with `element.` fires on a member
expression with string property name `p`, at each of the four sites, exactly
when `p = t` or the full access text equals `t`; it then prints one line. -/
theorem plain_rule_fires_iff (site : Site) (t : String) (object prop : Node) (computed : Bool)
    (start : Loc) (p : String) (ht : startsWith t "element." = false)
    (hp : prop.propertyName = .str p) :
    site.run [t] object prop computed start State.empty =
      if p = t ∨ fullAccess object prop = t then
        ⟨⟨[site.line t object prop start], true⟩, none⟩
      else ⟨State.empty, none⟩ := by
  rw [Site.run_eq, forOf_single]
  simp only [ruleStep, ht, hp, Bool.false_and]
  by_cases h1 : p = t
  · subst h1
    simp [JSVal.strictEq, report, State.empty, Site.line]
  · by_cases h2 : fullAccess object prop = t
    · simp [h2, report, State.empty, Site.line]
    · have h1b : ¬ t = p := fun h => h1 h.symm
      simp [h1, h1b, h2, JSVal.strictEq, State.empty]

/-- C3 (witness): the rule `document.cookie` on the assignment `document.cookie = f` in
the JS branch. -/
theorem plain_rule_fires_iff_witness :
    startsWith "document.cookie" "element." = false ∧
    (Node.identifier "cookie" ⟨1, 9⟩).propertyName = .str "cookie" ∧
    (Site.assignJs (.identifier "f" ⟨1, 18⟩) ⟨1, 0⟩).run ["document.cookie"]
        (.identifier "document" ⟨1, 0⟩) (.identifier "cookie" ⟨1, 9⟩) false ⟨1, 0⟩ State.empty =
      if "cookie" = "document.cookie" ∨
          fullAccess (.identifier "document" ⟨1, 0⟩) (.identifier "cookie" ⟨1, 9⟩) =
            "document.cookie" then
        ⟨⟨[(Site.assignJs (.identifier "f" ⟨1, 18⟩) ⟨1, 0⟩).line "document.cookie"
          (.identifier "document" ⟨1, 0⟩) (.identifier "cookie" ⟨1, 9⟩) ⟨1, 0⟩], true⟩, none⟩
      else ⟨State.empty, none⟩ :=
  ⟨by decide, by decide,
    plain_rule_fires_iff _ "document.cookie" _ _ false _ "cookie" (by decide) (by decide)⟩

/-- C2 (counterexample): the rule `element.onevent` prints a finding for
`window["element.onevent"]`, whose full access text `window.element.onevent`
does not start with `element`. -/
theorem wildcard_counterexample :
    startsWith (fullAccess (.identifier "window" ⟨1, 0⟩)
      (.literal (.str "element.onevent") ⟨1, 7⟩)) "element" = false ∧
    MemberExpressionHtml ["element.onevent"] 0
        (.member (.identifier "window" ⟨1, 0⟩) (.literal (.str "element.onevent") ⟨1, 7⟩) true
          ⟨1, 0⟩) State.empty =
      ⟨⟨[.ruleMatch ⟨"element.onevent", some 1, 1, 0, some "window.element.onevent"⟩], true⟩,
        none⟩ := by
  constructor <;> decide

/-- C2 (amended): the rule `element.onevent` fires on a member expression with
string property name `p`, at each of the four sites, exactly when the full
access text starts with `element` and `p` starts with `on`, or the full access
text does not start with `element` and `p` is the rule text `element.onevent`
itself; it then prints one line. -/
theorem wildcard_fires_iff (site : Site) (object prop : Node) (computed : Bool) (start : Loc)
    (p : String) (hp : prop.propertyName = .str p) :
    site.run ["element.onevent"] object prop computed start State.empty =
      if (startsWith (fullAccess object prop) "element" = true ∧ startsWith p "on" = true) ∨
          (startsWith (fullAccess object prop) "element" = false ∧ p = "element.onevent") then
        ⟨⟨[site.line "element.onevent" object prop start], true⟩, none⟩
      else ⟨State.empty, none⟩ := by
  rw [Site.run_eq, forOf_single]
  have h0 : startsWith "element.onevent" "element." = true := by decide
  have hseg : index (splitDot "element.onevent") 1 = .str "onevent" := by decide
  simp only [ruleStep, h0, hseg, hp, Bool.true_and]
  cases hfull : startsWith (fullAccess object prop) "element" with
  | true =>
    by_cases hon : startsWith p "on" = true
    · by_cases hev : p = "onevent"
      · subst hev
        simp [hon, JSVal.strictEq, orElse, report, State.empty, Site.line]
      · have hev2 : ¬ "onevent" = p := fun h => hev h.symm
        simp [hon, hev2, JSVal.strictEq, JSVal.callStartsWith, orElse, andAlso, report,
          State.empty, Site.line]
    · have hev : ¬ "onevent" = p := by
        intro h
        subst h
        exact hon (by decide)
      simp [hon, hev, JSVal.strictEq, JSVal.callStartsWith, orElse, andAlso]
  | false =>
    have hne : ¬ fullAccess object prop = "element.onevent" := by
      intro h
      rw [h] at hfull
      exact absurd hfull (by decide)
    by_cases hev : p = "element.onevent"
    · simp [hev, JSVal.strictEq, report, State.empty, Site.line]
    · have hev2 : ¬ "element.onevent" = p := fun h => hev h.symm
      simp [hev, hev2, hne, JSVal.strictEq]

/-- C2 (witness): the rule `element.onevent` on the assignment `element.onclick = f` in
the HTML branch. -/
theorem wildcard_fires_iff_witness :
    (Node.identifier "onclick" ⟨1, 8⟩).propertyName = .str "onclick" ∧
    (Site.assignHtml 0 (.identifier "f" ⟨1, 18⟩) ⟨1, 0⟩).run ["element.onevent"]
        (.identifier "element" ⟨1, 0⟩) (.identifier "onclick" ⟨1, 8⟩) false ⟨1, 0⟩ State.empty =
      if (startsWith (fullAccess (.identifier "element" ⟨1, 0⟩) (.identifier "onclick" ⟨1, 8⟩))
            "element" = true ∧ startsWith "onclick" "on" = true) ∨
          (startsWith (fullAccess (.identifier "element" ⟨1, 0⟩) (.identifier "onclick" ⟨1, 8⟩))
            "element" = false ∧ "onclick" = "element.onevent") then
        ⟨⟨[(Site.assignHtml 0 (.identifier "f" ⟨1, 18⟩) ⟨1, 0⟩).line "element.onevent"
          (.identifier "element" ⟨1, 0⟩) (.identifier "onclick" ⟨1, 8⟩) ⟨1, 0⟩], true⟩, none⟩
      else ⟨State.empty, none⟩ :=
  ⟨by decide, wildcard_fires_iff _ _ _ false _ "onclick" (by decide)⟩

/-- C4 (the code at the failing input): with the rule `undefined.cookie`, the
accesses `a.b.cookie` and `f().cookie`, whose objects are not identifiers, each
print a finding through the comparison of the full access text, which reads
`undefined.cookie`. -/
theorem unnamed_object_matches_undefined_rule :
    MemberExpressionHtml ["undefined.cookie"] 0
        (.member (.member (.identifier "a" ⟨1, 0⟩) (.identifier "b" ⟨1, 2⟩) false ⟨1, 0⟩)
          (.identifier "cookie" ⟨1, 4⟩) false ⟨1, 0⟩) State.empty =
      ⟨⟨[.ruleMatch ⟨"undefined.cookie", some 1, 1, 0, some "undefined.cookie"⟩], true⟩, none⟩ ∧
    MemberExpressionJs ["undefined.cookie"]
        (.member (.call (.identifier "f" ⟨1, 0⟩) [] ⟨1, 0⟩) (.identifier "cookie" ⟨1, 4⟩) false
          ⟨1, 0⟩) State.empty =
      ⟨⟨[.ruleMatch ⟨"undefined.cookie", none, 1, 0, some "undefined.cookie"⟩], true⟩, none⟩ := by
  constructor <;> decide

/-- C5 (counterexample): the variable-indexed accesses `element[onclick]` under
the rule `element.onevent` and `obj[cookie]` under the rule `cookie` each print
a finding. -/
theorem computed_identifier_key_counterexample :
    MemberExpressionHtml ["element.onevent"] 0
        (.member (.identifier "element" ⟨1, 0⟩) (.identifier "onclick" ⟨1, 8⟩) true ⟨1, 0⟩)
        State.empty =
      ⟨⟨[.ruleMatch ⟨"element.onevent", some 1, 1, 0, some "element.onclick"⟩], true⟩, none⟩ ∧
    MemberExpressionJs ["cookie"]
        (.member (.identifier "obj" ⟨1, 0⟩) (.identifier "cookie" ⟨1, 4⟩) true ⟨1, 0⟩)
        State.empty =
      ⟨⟨[.ruleMatch ⟨"cookie", none, 1, 0, some "obj.cookie"⟩], true⟩, none⟩ := by
  constructor <;> decide

/-- C5 (amended): at each of the four sites, a computed access whose key is an
identifier is matched exactly as the dot access of that name.  A computed access
whose key is neither an identifier nor a literal, whatever expression it is
(`obj[a + b]`, `obj[a.b]`, `obj[f()]`, `obj[i = 1]`), has the empty property
name; from every state and for every rule list it never throws and prints
exactly the rules whose loop test holds on the empty name, in rule order; and it
prints nothing when no rule is empty, ends in a dot or starts with
`element..`. -/
theorem computed_key_matching (site : Site) (rules : List String) (object : Node) (start : Loc) :
    (∀ (n : String) (kl : Loc) (s : State),
      site.run rules object (.identifier n kl) true start s =
        site.run rules object (.identifier n kl) false start s) ∧
    (∀ key : Node, key.isIdentifier = false → key.isLiteral = false →
      key.propertyName = .str "" ∧
      (∀ s : State, site.run rules object key true start s =
        ⟨⟨s.log ++ (rules.filter (ruleFires (fullAccess object key) "")).map fun r =>
            site.line r object key start,
          s.found || rules.any (ruleFires (fullAccess object key) "")⟩, none⟩) ∧
      ((∀ r ∈ rules, r ≠ "" ∧ endsWith r "." = false ∧ startsWith r "element.." = false) →
        ∀ s : State, site.run rules object key true start s = ⟨s, none⟩)) := by
  constructor
  · intro n kl s
    cases site <;> rfl
  · intro key h1 h2
    have hp := propertyName_of_unnamed key h1 h2
    refine ⟨hp, fun s => Site.run_str site rules object key true start "" hp s, fun h s => ?_⟩
    rw [Site.run_eq]
    exact forOf_noop _ _
      (fun r hr s1 => ruleStep_empty_name _ _ object key hp r (h r hr).1 (h r hr).2.1
        (h r hr).2.2 s1) _

/-- C5 (witness): the rules `obj.cookie` and `element.onevent` on the access `obj[a.b]`
in the JS branch, after an earlier finding. -/
theorem computed_key_matching_witness :
    (Node.member (.identifier "a" ⟨1, 4⟩) (.identifier "b" ⟨1, 6⟩) false ⟨1, 4⟩).isIdentifier =
      false ∧
    (Node.member (.identifier "a" ⟨1, 4⟩) (.identifier "b" ⟨1, 6⟩) false ⟨1, 4⟩).isLiteral =
      false ∧
    (∀ r ∈ ["obj.cookie", "element.onevent"],
      r ≠ "" ∧ endsWith r "." = false ∧ startsWith r "element.." = false) ∧
    Site.accessJs.run ["obj.cookie", "element.onevent"] (.identifier "obj" ⟨1, 0⟩)
        (.member (.identifier "a" ⟨1, 4⟩) (.identifier "b" ⟨1, 6⟩) false ⟨1, 4⟩) true ⟨1, 0⟩
        ⟨[.ruleMatch ⟨"eval", none, 1, 0, none⟩], true⟩ =
      ⟨⟨[.ruleMatch ⟨"eval", none, 1, 0, none⟩], true⟩, none⟩ :=
  ⟨rfl, rfl, by decide,
    ((computed_key_matching Site.accessJs ["obj.cookie", "element.onevent"]
      (.identifier "obj" ⟨1, 0⟩) ⟨1, 0⟩).2
      (.member (.identifier "a" ⟨1, 4⟩) (.identifier "b" ⟨1, 6⟩) false ⟨1, 4⟩) rfl rfl).2.2
      (by decide) _⟩

/-- C6 (counterexample): the accesses `obj[a + b]` under the rule `obj.` and
`element[a + b]` under the rule `element.`, whose property name is empty, each
print a finding. -/
theorem empty_name_counterexample :
    MemberExpressionHtml ["obj."] 0
        (.member (.identifier "obj" ⟨1, 0⟩)
          (.other [.identifier "a" ⟨1, 4⟩, .identifier "b" ⟨1, 8⟩] ⟨1, 4⟩) true ⟨1, 0⟩)
        State.empty =
      ⟨⟨[.ruleMatch ⟨"obj.", some 1, 1, 0, some "obj."⟩], true⟩, none⟩ ∧
    MemberExpressionHtml ["element."] 0
        (.member (.identifier "element" ⟨1, 0⟩)
          (.other [.identifier "a" ⟨1, 8⟩, .identifier "b" ⟨1, 12⟩] ⟨1, 8⟩) true ⟨1, 0⟩)
        State.empty =
      ⟨⟨[.ruleMatch ⟨"element.", some 1, 1, 0, some "element."⟩], true⟩, none⟩ := by
  constructor <;> decide

/-- C6 (amended): at each of the four sites, a member expression whose
extracted property name is the empty string prints nothing and throws nothing,
for every rule list in which no rule is empty, ends in a dot or starts with
`element..`. -/
theorem empty_name_no_finding (site : Site) (rules : List String) (object prop : Node)
    (computed : Bool) (start : Loc) (hp : prop.propertyName = .str "")
    (hrules : ∀ r ∈ rules, r ≠ "" ∧ endsWith r "." = false ∧ startsWith r "element.." = false) :
    site.run rules object prop computed start State.empty = ⟨State.empty, none⟩ := by
  rw [Site.run_eq]
  exact forOf_noop _ _
    (fun r hr s => ruleStep_empty_name _ _ object prop hp r (hrules r hr).1 (hrules r hr).2.1
      (hrules r hr).2.2 s) _

/-- C6 (witness): three ordinary rules on the access `element[""]` in the third script
of a page. -/
theorem empty_name_no_finding_witness :
    (Node.literal (.str "") ⟨3, 8⟩).propertyName = .str "" ∧
    (∀ r ∈ ["element.onevent", "eval", "document.cookie"],
      r ≠ "" ∧ endsWith r "." = false ∧ startsWith r "element.." = false) ∧
    (Site.accessHtml 2).run ["element.onevent", "eval", "document.cookie"]
        (.identifier "element" ⟨3, 0⟩) (.literal (.str "") ⟨3, 8⟩) true ⟨3, 0⟩ State.empty =
      ⟨State.empty, none⟩ :=
  ⟨by decide, by decide,
    empty_name_no_finding (Site.accessHtml 2) ["element.onevent", "eval", "document.cookie"]
      (.identifier "element" ⟨3, 0⟩) (.literal (.str "") ⟨3, 8⟩) true ⟨3, 0⟩ (by decide)
      (by decide)⟩

/-- C7 (the code at the failing input): with the rule `element.onevent`, the
accesses `element[0]` and `element[true]` make the member handler throw a
`TypeError` (the key is not a string, so it has no `startsWith`), and a scan of
a script that is just `element[0]` ends with that exception, after the header
line and without a closing line. -/
theorem numeric_key_throws :
    MemberExpressionHtml ["element.onevent"] 0
        (.member (.identifier "element" ⟨1, 0⟩) (.literal (.num "0") ⟨1, 8⟩) true ⟨1, 0⟩)
        State.empty =
      ⟨State.empty, some (.typeError "propertyName.startsWith is not a function")⟩ ∧
    AssignmentExpressionJs ["element.onevent"]
        (.assignment
          (.member (.identifier "element" ⟨1, 0⟩) (.literal (.bool true) ⟨1, 8⟩) true ⟨1, 0⟩)
          (.identifier "f" ⟨1, 16⟩) ⟨1, 0⟩)
        State.empty =
      ⟨State.empty, some (.typeError "propertyName.startsWith is not a function")⟩ ∧
    processContent "rules.txt" ["element.onevent"]
        (.js (.tree (.other [.other [.member (.identifier "element" ⟨1, 0⟩)
          (.literal (.num "0") ⟨1, 8⟩) true ⟨1, 0⟩] ⟨1, 0⟩] ⟨1, 0⟩))) =
      ⟨⟨[.scanning "rules.txt"], false⟩,
        some (.typeError "propertyName.startsWith is not a function")⟩ := by
  refine ⟨?_, ?_, ?_⟩ <;> decide

/-- C8 (counterexample): scanning `element.onclick = f; document.cookie` with
the rules `element.onevent` and `document.cookie` prints three findings, not
two: `element.onclick` is reported by the assignment handler and again by the
member handler, at the same position, and then `document.cookie` once. -/
theorem scenario_counterexample :
    processContent "rules.txt" ["element.onevent", "document.cookie"] (.js (.tree scenario)) =
      ⟨⟨[.scanning "rules.txt",
          .ruleMatch ⟨"element.onevent", none, 1, 0, some "element.onclick"⟩,
          .ruleMatch ⟨"element.onevent", none, 1, 0, some "element.onclick"⟩,
          .ruleMatch ⟨"document.cookie", none, 1, 21, some "document.cookie"⟩], true⟩, none⟩ ∧
    processContent "rules.txt" ["element.onevent", "document.cookie"]
        (.html [.tree scenario]) =
      ⟨⟨[.scanning "rules.txt",
          .ruleMatch ⟨"element.onevent", some 1, 1, 0, some "element.onclick"⟩,
          .ruleMatch ⟨"element.onevent", some 1, 1, 0, some "element.onclick"⟩,
          .ruleMatch ⟨"document.cookie", some 1, 1, 21, some "document.cookie"⟩], true⟩, none⟩ := by
  constructor <;> decide

/-- C8 (amended): walking an assignment whose left side is a member expression
with a string property name prints, for the rules that fire on that left side,
first the lines of the assignment handler and then the lines of the member
handler, each in rule order, before anything else: every such rule is reported
twice.  In the HTML branch the two lines of a rule are identical. -/
theorem assignment_target_reported_twice (rules : List String) (idx : Nat) (object prop : Node)
    (computed : Bool) (start l : Loc) (right : Node) (s : State) (p : String)
    (hp : prop.propertyName = .str p) :
    (∃ rest,
      (traverse (visitorHtml rules idx)
        (.assignment (.member object prop computed start) right l) s).state.log =
      s.log ++
        ((rules.filter (ruleFires (fullAccess object prop) p)).map fun r =>
          (Site.assignHtml idx right l).line r object prop start) ++
        ((rules.filter (ruleFires (fullAccess object prop) p)).map fun r =>
          (Site.accessHtml idx).line r object prop start) ++ rest) ∧
    (∃ rest,
      (traverse (visitorJs rules)
        (.assignment (.member object prop computed start) right l) s).state.log =
      s.log ++
        ((rules.filter (ruleFires (fullAccess object prop) p)).map fun r =>
          (Site.assignJs right l).line r object prop start) ++
        ((rules.filter (ruleFires (fullAccess object prop) p)).map fun r =>
          Site.accessJs.line r object prop start) ++ rest) ∧
    (∀ r, (Site.assignHtml idx right l).line r object prop start =
      (Site.accessHtml idx).line r object prop start) := by
  refine ⟨?_, ?_, fun r => rfl⟩
  · have h1 : ∀ s, (visitorHtml rules idx).AssignmentExpression
        (.assignment (.member object prop computed start) right l) s =
          (Site.assignHtml idx right l).run rules object prop computed start s := fun _ => rfl
    have h2 : ∀ s, (visitorHtml rules idx).MemberExpression
        (.member object prop computed start) s =
          (Site.accessHtml idx).run rules object prop computed start s := fun _ => rfl
    have hg := fun n => visitorHtml_grows rules idx n
    have hrest := andThen_grows
      (fun s => (traverse (visitorHtml rules idx) object s).andThen
        (traverse (visitorHtml rules idx) prop))
      (traverse (visitorHtml rules idx) right)
      (andThen_grows _ _
        (traverse_grows _ (fun n => (hg n).1) (fun n => (hg n).2.1) (fun n => (hg n).2.2) object)
        (traverse_grows _ (fun n => (hg n).1) (fun n => (hg n).2.1) (fun n => (hg n).2.2) prop))
      (traverse_grows _ (fun n => (hg n).1) (fun n => (hg n).2.1) (fun n => (hg n).2.2) right)
    rw [traverse, h1, Site.run_eq, hp, forOf_ruleStep_str, andThen_ok, traverse, h2, Site.run_eq,
      hp, forOf_ruleStep_str, andThen_ok]
    obtain ⟨rest, hr⟩ := hrest _
    exact ⟨rest, hr⟩
  · have h1 : ∀ s, (visitorJs rules).AssignmentExpression
        (.assignment (.member object prop computed start) right l) s =
          (Site.assignJs right l).run rules object prop computed start s := fun _ => rfl
    have h2 : ∀ s, (visitorJs rules).MemberExpression
        (.member object prop computed start) s =
          Site.accessJs.run rules object prop computed start s := fun _ => rfl
    have hg := fun n => visitorJs_grows rules n
    have hrest := andThen_grows
      (fun s => (traverse (visitorJs rules) object s).andThen
        (traverse (visitorJs rules) prop))
      (traverse (visitorJs rules) right)
      (andThen_grows _ _
        (traverse_grows _ (fun n => (hg n).1) (fun n => (hg n).2.1) (fun n => (hg n).2.2) object)
        (traverse_grows _ (fun n => (hg n).1) (fun n => (hg n).2.1) (fun n => (hg n).2.2) prop))
      (traverse_grows _ (fun n => (hg n).1) (fun n => (hg n).2.1) (fun n => (hg n).2.2) right)
    rw [traverse, h1, Site.run_eq, hp, forOf_ruleStep_str, andThen_ok, traverse, h2, Site.run_eq,
      hp, forOf_ruleStep_str, andThen_ok]
    obtain ⟨rest, hr⟩ := hrest _
    exact ⟨rest, hr⟩

/-- C8 (witness): the assignment `element.onclick = f` of the scenario, walked in the
HTML branch. -/
theorem assignment_target_reported_twice_witness :
    (Node.identifier "onclick" ⟨1, 8⟩).propertyName = .str "onclick" ∧
    ∃ rest,
      (traverse (visitorHtml ["element.onevent", "document.cookie"] 0)
        (.assignment
          (.member (.identifier "element" ⟨1, 0⟩) (.identifier "onclick" ⟨1, 8⟩) false ⟨1, 0⟩)
          (.identifier "f" ⟨1, 18⟩) ⟨1, 0⟩) State.empty).state.log =
      State.empty.log ++
        ((["element.onevent", "document.cookie"].filter
          (ruleFires (fullAccess (.identifier "element" ⟨1, 0⟩) (.identifier "onclick" ⟨1, 8⟩))
            "onclick")).map fun r =>
          (Site.assignHtml 0 (.identifier "f" ⟨1, 18⟩) ⟨1, 0⟩).line r
            (.identifier "element" ⟨1, 0⟩) (.identifier "onclick" ⟨1, 8⟩) ⟨1, 0⟩) ++
        ((["element.onevent", "document.cookie"].filter
          (ruleFires (fullAccess (.identifier "element" ⟨1, 0⟩) (.identifier "onclick" ⟨1, 8⟩))
            "onclick")).map fun r =>
          (Site.accessHtml 0).line r
            (.identifier "element" ⟨1, 0⟩) (.identifier "onclick" ⟨1, 8⟩) ⟨1, 0⟩) ++ rest :=
  ⟨by decide,
    (assignment_target_reported_twice ["element.onevent", "document.cookie"] 0
      (.identifier "element" ⟨1, 0⟩) (.identifier "onclick" ⟨1, 8⟩) false ⟨1, 0⟩ ⟨1, 0⟩
      (.identifier "f" ⟨1, 18⟩) State.empty "onclick" (by decide)).1⟩

/-- C9 (counterexample): with the rule `document.cookie` and three script
units, the first and third being `document.cookie` and the second failing to
parse, the scan prints the finding of the first unit only and ends with the
parse error: the third unit is never walked and no closing line is printed. -/
theorem parse_failure_counterexample :
    processContent "rules.txt" ["document.cookie"]
        (.html [
          .tree (.other [.other [.member (.identifier "document" ⟨1, 0⟩)
            (.identifier "cookie" ⟨1, 9⟩) false ⟨1, 0⟩] ⟨1, 0⟩] ⟨1, 0⟩),
          .failure "Unexpected token (1:4)",
          .tree (.other [.other [.member (.identifier "document" ⟨1, 0⟩)
            (.identifier "cookie" ⟨1, 9⟩) false ⟨1, 0⟩] ⟨1, 0⟩] ⟨1, 0⟩)]) =
      ⟨⟨[.scanning "rules.txt",
          .ruleMatch ⟨"document.cookie", some 1, 1, 0, some "document.cookie"⟩], true⟩,
        some (.parseFailure "Unexpected token (1:4)")⟩ := by
  decide

/-- C9 (amended): when a unit fails to parse, the scan stops at that unit with
the parse error.  The units before it are scanned exactly as if they were the
whole input, the failing unit and every unit after it contribute nothing, and
no closing line is printed; a standalone script that fails to parse ends the
scan right after the header line. -/
theorem parse_failure_stops_scan (rulesPath : String) (rules : List String)
    (before : List Node) (msg : String) (after : List Parsed) :
    processContent rulesPath rules (.html (before.map .tree ++ .failure msg :: after)) =
      ((forEachScript rules (before.map .tree) 0 ⟨[.scanning rulesPath], false⟩).andThen
        fun s => ⟨s, some (.parseFailure msg)⟩) ∧
    (processContent rulesPath rules
      (.html (before.map .tree ++ .failure msg :: after))).error ≠ none ∧
    processContent rulesPath rules (.js (.failure msg)) =
      ⟨⟨[.scanning rulesPath], false⟩, some (.parseFailure msg)⟩ := by
  have h : processContent rulesPath rules (.html (before.map .tree ++ .failure msg :: after)) =
      ((forEachScript rules (before.map .tree) 0 ⟨[.scanning rulesPath], false⟩).andThen
        fun s => ⟨s, some (.parseFailure msg)⟩) := by
    simp only [processContent, forEachScript_append, forEachScript, andThen_assoc]
    congr 1
  refine ⟨h, ?_, rfl⟩
  rw [h]
  rcases forEachScript rules (before.map .tree) 0 ⟨[.scanning rulesPath], false⟩ with
    ⟨s1, _ | e⟩ <;> simp [Result.andThen]

/-- C10: with an empty rule list, a scan of any number of parsed script units
(HTML branch) or of any parsed script (JS branch) prints no finding, leaves
`found` false, and ends normally with the line `No issues found`. -/
theorem empty_rules_no_issues (rulesPath : String) (trees : List Node) (ast : Node) :
    processContent rulesPath [] (.html (trees.map .tree)) =
      ⟨⟨[.scanning rulesPath, .noIssues], false⟩, none⟩ ∧
    processContent rulesPath [] (.js (.tree ast)) =
      ⟨⟨[.scanning rulesPath, .noIssues], false⟩, none⟩ := by
  constructor
  · simp [processContent, forEachScript_nil_rules, andThen_ok, finish]
  · simp only [processContent]
    rw [traverse_noop (visitorJs []) MemberExpressionJs_nil AssignmentExpressionJs_nil
      CallExpressionJs_nil ast _, andThen_ok]
    simp [finish]

/-- C11 (counterexample): with the rule list `eval`, `eval` (the same line
twice), the call `eval(x)` prints one finding, not two. -/
theorem identifier_call_counterexample :
    CallExpressionHtml ["eval", "eval"] 0
        (.call (.identifier "eval" ⟨1, 0⟩) [.identifier "x" ⟨1, 5⟩] ⟨1, 0⟩) State.empty =
      ⟨⟨[.ruleMatch ⟨"eval", some 1, 1, 0, none⟩], true⟩, none⟩ ∧
    CallExpressionJs ["eval", "eval"]
        (.call (.identifier "eval" ⟨1, 0⟩) [.identifier "x" ⟨1, 5⟩] ⟨1, 0⟩) State.empty =
      ⟨⟨[.ruleMatch ⟨"eval", none, 1, 0, none⟩], true⟩, none⟩ := by
  constructor <;> decide

/-- C11 (amended): for a call whose callee is the identifier `n`, the call
handler of either branch prints exactly one finding, quoting `n`, when some rule
of the list equals `n` (however many do), and nothing when none does; and when
`n` contains no dot, the rules that contain a dot have no effect on the call. -/
theorem identifier_call_one_finding (rules : List String) (idx : Nat) (n : String) (nl l : Loc)
    (args : List Node) (s : State) :
    CallExpressionHtml rules idx (.call (.identifier n nl) args l) s =
      (if n ∈ rules then ⟨report ⟨n, some (idx + 1), l.line, l.column, none⟩ s, none⟩
        else ⟨s, none⟩) ∧
    CallExpressionJs rules (.call (.identifier n nl) args l) s =
      (if n ∈ rules then ⟨report ⟨n, none, l.line, l.column, none⟩ s, none⟩ else ⟨s, none⟩) ∧
    ('.' ∉ n.data →
      CallExpressionHtml rules idx (.call (.identifier n nl) args l) s =
        CallExpressionHtml (rules.filter fun r => decide ('.' ∉ r.data)) idx
          (.call (.identifier n nl) args l) s ∧
      CallExpressionJs rules (.call (.identifier n nl) args l) s =
        CallExpressionJs (rules.filter fun r => decide ('.' ∉ r.data))
          (.call (.identifier n nl) args l) s) := by
  have hH : ∀ rs : List String, CallExpressionHtml rs idx (.call (.identifier n nl) args l) s =
      (if n ∈ rs then ⟨report ⟨n, some (idx + 1), l.line, l.column, none⟩ s, none⟩
        else ⟨s, none⟩) := by
    intro rs
    by_cases h : n ∈ rs <;>
      simp [CallExpressionHtml, Node.isIdentifier, Node.name, includes_str, JSVal.toText, h]
  have hJ : ∀ rs : List String, CallExpressionJs rs (.call (.identifier n nl) args l) s =
      (if n ∈ rs then ⟨report ⟨n, none, l.line, l.column, none⟩ s, none⟩ else ⟨s, none⟩) := by
    intro rs
    by_cases h : n ∈ rs <;>
      simp [CallExpressionJs, Node.isIdentifier, Node.name, includes_str, JSVal.toText, h]
  refine ⟨hH rules, hJ rules, fun hn => ?_⟩
  have hmem : n ∈ rules.filter (fun r => decide ('.' ∉ r.data)) ↔ n ∈ rules := by
    simp [List.mem_filter, hn]
  rw [hH rules, hJ rules, hH, hJ]
  simp only [hmem, and_self]

/-- C11 (witness): the rules `document.cookie`, `eval` on the call `eval(x)`: the dotted rule
can be dropped. -/
theorem identifier_call_one_finding_witness :
    '.' ∉ "eval".data ∧
    CallExpressionJs ["document.cookie", "eval"]
        (.call (.identifier "eval" ⟨1, 0⟩) [.identifier "x" ⟨1, 5⟩] ⟨1, 0⟩) State.empty =
      CallExpressionJs (["document.cookie", "eval"].filter fun r => decide ('.' ∉ r.data))
        (.call (.identifier "eval" ⟨1, 0⟩) [.identifier "x" ⟨1, 5⟩] ⟨1, 0⟩) State.empty :=
  ⟨by decide,
    ((identifier_call_one_finding ["document.cookie", "eval"] 0 "eval" ⟨1, 0⟩ ⟨1, 0⟩
      [.identifier "x" ⟨1, 5⟩] State.empty).2.2 (by decide)).2⟩

/-- C12 (counterexample): scanning `foo.eval()` with the rule `eval` prints, for
the method call, a finding whose quoted text is `.eval()`, which is not a rule
of the list (the second line is the finding of the member handler for the
callee `foo.eval`). -/
theorem quoted_text_counterexample :
    processContent "rules.txt" ["eval"] (.js (.tree methodCallScript)) =
      ⟨⟨[.scanning "rules.txt", .ruleMatch ⟨".eval()", none, 1, 0, none⟩,
          .ruleMatch ⟨"eval", none, 1, 0, some "foo.eval"⟩], true⟩, none⟩ ∧
    processContent "rules.txt" ["eval"] (.html [.tree methodCallScript]) =
      ⟨⟨[.scanning "rules.txt", .ruleMatch ⟨".eval()", some 1, 1, 0, none⟩,
          .ruleMatch ⟨"eval", some 1, 1, 0, some "foo.eval"⟩], true⟩, none⟩ ∧
    ".eval()" ∉ ["eval"] := by
  refine ⟨?_, ?_, ?_⟩ <;> decide

/-- C12 (amended): in every scan, the quoted text of every finding line is a
rule of the list, except on method-call lines, where it is a rule text `r`
written as `.r()`.  The rule did match the node, for each of the four kinds: a
line added by a member handler (access or assignment, either branch) quotes a
rule whose test held on that member expression; a line added for a call of the
identifier `n` quotes `n` itself, which is a rule of the list; and a line added
for a method call quotes `.r()` for a rule `r` equal to the method name. -/
theorem quoted_text_names_rule (rulesPath : String) (rules : List String) :
    (∀ content, AllMatches (QuotesRule rules) (processContent rulesPath rules content).state) ∧
    (∀ (site : Site) (object prop : Node) (computed : Bool) (start : Loc) (s : State),
      ∀ x ∈ (site.run rules object prop computed start s).state.log,
        x ∈ s.log ∨ ∃ r ∈ rules, x = site.line r object prop start ∧
          ruleTest (fullAccess object prop) prop.propertyName r = .ok true) ∧
    (∀ (idx : Nat) (n : String) (nl l : Loc) (args : List Node) (s : State),
      ∀ x ∈ (CallExpressionHtml rules idx (.call (.identifier n nl) args l) s).state.log,
        x ∈ s.log ∨
          (n ∈ rules ∧ x = .ruleMatch ⟨n, some (idx + 1), l.line, l.column, none⟩)) ∧
    (∀ (n : String) (nl l : Loc) (args : List Node) (s : State),
      ∀ x ∈ (CallExpressionJs rules (.call (.identifier n nl) args l) s).state.log,
        x ∈ s.log ∨ (n ∈ rules ∧ x = .ruleMatch ⟨n, none, l.line, l.column, none⟩)) ∧
    (∀ (idx : Nat) (o p : Node) (c : Bool) (cl l : Loc) (args : List Node) (s : State),
      ∀ x ∈ (CallExpressionHtml rules idx (.call (.member o p c cl) args l) s).state.log,
        x ∈ s.log ∨ ∃ r ∈ rules, p.name.or p.value = .str r ∧
          x = .ruleMatch ⟨"." ++ r ++ "()", some (idx + 1), cl.line, cl.column, none⟩) ∧
    (∀ (o p : Node) (c : Bool) (cl l : Loc) (args : List Node) (s : State),
      ∀ x ∈ (CallExpressionJs rules (.call (.member o p c cl) args l) s).state.log,
        x ∈ s.log ∨ ∃ r ∈ rules, p.name.or p.value = .str r ∧
          x = .ruleMatch ⟨"." ++ r ++ "()", none, l.line, l.column, none⟩) := by
  refine ⟨fun content => ?_, fun site o p c l s => Site.run_lines site rules o p c l s,
    fun idx n nl l args s => identifierCall_lines_html rules idx n nl l args s,
    fun n nl l args s => identifierCall_lines_js rules n nl l args s,
    fun idx o p c cl l args s => methodCall_lines_html rules idx o p c cl l args s,
    fun o p c cl l args s => methodCall_lines_js rules o p c cl l args s⟩
  refine processContent_preserves _ rulesPath rules ?_ (fun idx n s hs =>
    visitorHtml_quotes rules idx n s hs) (fun n s hs => visitorJs_quotes rules n s hs) ?_ content
  · intro m hm
    simp at hm
  · intro s hs m hm
    unfold finish at hm
    split at hm
    · simp only [List.mem_append, List.mem_singleton] at hm
      rcases hm with hm | hm
      · exact hs m hm
      · cases hm
    · exact hs m hm

/-- C12 (witness): the finding line printed for `foo.eval()` under the rule `eval`. -/
theorem quoted_text_names_rule_witness :
    Line.ruleMatch ⟨".eval()", none, 1, 0, none⟩ ∈
      (processContent "rules.txt" ["eval"] (.js (.tree methodCallScript))).state.log ∧
    QuotesRule ["eval"] ⟨".eval()", none, 1, 0, none⟩ :=
  ⟨by decide,
    (quoted_text_names_rule "rules.txt" ["eval"]).1 (.js (.tree methodCallScript)) _
      (by decide)⟩

/-- C13: the loaded rule list is the list of the file's lines, without the
empty and white-space-only ones, each trimmed, in file order.  Hence every
loaded rule is non-empty and neither starts nor ends with a white space
character, and there are as many rules as lines that are not white space
only. -/
theorem loadRules_spec (text : String) :
    loadRules text = specRules text ∧
    (∀ r ∈ loadRules text, r ≠ "" ∧
      (∀ c, r.data.head? = some c → isWhiteSpace c = false) ∧
      (∀ c, r.data.getLast? = some c → isWhiteSpace c = false)) ∧
    (loadRules text).length =
      ((splitLines text).filter fun line => !isBlank line).length := by
  have h1 : loadRules text = specRules text := by
    unfold loadRules specRules
    rw [List.filter_map]
    congr 1
    apply List.filter_congr
    intro line _
    exact trim_truthy line
  refine ⟨h1, ?_, ?_⟩
  · intro r hr
    simp only [loadRules, List.mem_filter, List.mem_map] at hr
    obtain ⟨⟨line, _, rfl⟩, ht⟩ := hr
    refine ⟨?_, trim_head line, trim_last line⟩
    intro e
    rw [e] at ht
    exact absurd ht (by decide)
  · rw [h1, specRules, List.length_map]

/-- C14: in every scan that completes (no exception leaves `processContent`), of
either branch, the console holds exactly one `No issues found` line when no
finding line was printed, and none when a finding line was printed. -/
theorem no_issues_iff_no_finding (rulesPath : String) (rules : List String) (content : Content)
    (h : (processContent rulesPath rules content).error = none) :
    (processContent rulesPath rules content).state.log.count .noIssues =
      if (processContent rulesPath rules content).state.log.any Line.isMatch then 0 else 1 := by
  obtain ⟨r, hI, he⟩ := processContent_before_finish FoundTracksLog report_foundTracksLog
    rulesPath rules ⟨by simp [Line.isMatch], by simp⟩ content
  rw [he] at h ⊢
  rcases r with ⟨s, _ | e⟩
  · rw [andThen_ok]
    obtain ⟨hf, hn⟩ := hI
    simp only [] at hf hn
    unfold finish
    cases hfound : s.found with
    | true =>
      have hany : s.log.any Line.isMatch = true := by rw [← hf, hfound]
      simp [hany, List.count_eq_zero.2 hn]
    | false =>
      have hany : s.log.any Line.isMatch = false := by rw [← hf, hfound]
      simp [hany, Line.isMatch, List.count_eq_zero.2 hn]
  · simp [Result.andThen] at h

/-- C14 (witness): the scan of `element.onclick = f; document.cookie` in the HTML branch
completes and has findings, so it prints no closing line. -/
theorem no_issues_iff_no_finding_witness :
    (processContent "rules.txt" ["element.onevent", "document.cookie"]
      (.html [.tree scenario])).error = none ∧
    (processContent "rules.txt" ["element.onevent", "document.cookie"]
      (.html [.tree scenario])).state.log.count .noIssues =
      if (processContent "rules.txt" ["element.onevent", "document.cookie"]
        (.html [.tree scenario])).state.log.any Line.isMatch then 0 else 1 :=
  ⟨by decide,
    no_issues_iff_no_finding "rules.txt" ["element.onevent", "document.cookie"]
      (.html [.tree scenario]) (by decide)⟩

/-- C15 (the code at the failing input): on the access `elements[0]` with the
rules `element.onevent`, `elements.0`, the member handler throws at the first
rule and prints nothing, although the second rule passes the test of the loop
and is reported when it stands alone: the findings are not the rule list
filtered by the test. -/
theorem throwing_rule_hides_later_rule :
    MemberExpressionHtml ["element.onevent", "elements.0"] 0
        (.member (.identifier "elements" ⟨1, 0⟩) (.literal (.num "0") ⟨1, 9⟩) true ⟨1, 0⟩)
        State.empty =
      ⟨State.empty, some (.typeError "propertyName.startsWith is not a function")⟩ ∧
    ruleTest "elements.0" (.num "0") "elements.0" = .ok true ∧
    MemberExpressionHtml ["elements.0"] 0
        (.member (.identifier "elements" ⟨1, 0⟩) (.literal (.num "0") ⟨1, 9⟩) true ⟨1, 0⟩)
        State.empty =
      ⟨⟨[.ruleMatch ⟨"elements.0", some 1, 1, 0, some "elements.0"⟩], true⟩, none⟩ := by
  refine ⟨by decide, rfl, by decide⟩

/-- C16: a member expression is matched the same way as the left side of an
assignment and as a property access.  In the HTML branch the two handlers give
the same result altogether; in the JS branch, where the assignment handler
prints the position of the assignment, they print the same quoted rule texts and
matched expressions in the same order, set `found` alike and end alike. -/
theorem assignment_same_as_access (rules : List String) (idx : Nat) (object prop : Node)
    (computed : Bool) (start : Loc) (right : Node) (l : Loc) (s : State) :
    AssignmentExpressionHtml rules idx (.assignment (.member object prop computed start) right l)
        s =
      MemberExpressionHtml rules idx (.member object prop computed start) s ∧
    (AssignmentExpressionJs rules (.assignment (.member object prop computed start) right l)
        s).error =
      (MemberExpressionJs rules (.member object prop computed start) s).error ∧
    (AssignmentExpressionJs rules (.assignment (.member object prop computed start) right l)
        s).state.found =
      (MemberExpressionJs rules (.member object prop computed start) s).state.found ∧
    (AssignmentExpressionJs rules (.assignment (.member object prop computed start) right l)
        s).state.log.map Line.erasePos =
      (MemberExpressionJs rules (.member object prop computed start) s).state.log.map
        Line.erasePos := by
  refine ⟨rfl, ?_⟩
  have h1 : AssignmentExpressionJs rules
      (.assignment (.member object prop computed start) right l) s =
        (Site.assignJs right l).run rules object prop computed start s := rfl
  have h2 : MemberExpressionJs rules (.member object prop computed start) s =
      Site.accessJs.run rules object prop computed start s := rfl
  rw [h1, h2, Site.run_eq, Site.run_eq]
  exact forOf_ruleStep_erasePos _ _ _ _ _ rules s s rfl rfl

/-- C17 (the code at the failing input): on the access `elements[0]`, the rule
lists `elements.0`, `element.onevent` and `element.onevent`, `elements.0`, which
are permutations of each other without a repeated rule, give different
findings: the first prints the finding of `elements.0` before the handler
throws, the second throws before printing anything. -/
theorem rule_order_changes_findings :
    ["elements.0", "element.onevent"].Perm ["element.onevent", "elements.0"] ∧
    ["elements.0", "element.onevent"].Nodup ∧
    MemberExpressionJs ["elements.0", "element.onevent"]
        (.member (.identifier "elements" ⟨1, 0⟩) (.literal (.num "0") ⟨1, 9⟩) true ⟨1, 0⟩)
        State.empty =
      ⟨⟨[.ruleMatch ⟨"elements.0", none, 1, 0, some "elements.0"⟩], true⟩,
        some (.typeError "propertyName.startsWith is not a function")⟩ ∧
    MemberExpressionJs ["element.onevent", "elements.0"]
        (.member (.identifier "elements" ⟨1, 0⟩) (.literal (.num "0") ⟨1, 9⟩) true ⟨1, 0⟩)
        State.empty =
      ⟨State.empty, some (.typeError "propertyName.startsWith is not a function")⟩ := by
  refine ⟨List.Perm.swap _ _ _, by decide, by decide, by decide⟩

/-- C18 (the code at the failing input): for the script `(element.onclick) = f`
under the rule `element.onevent`, the assignment finding is printed at column 1
(start of the left side) in the HTML branch and at column 0 (start of the
assignment) in the JS branch; for `(foo.html)()` under the rule `html`, the
method-call finding is printed at column 1 (start of the callee) in the HTML
branch and at column 0 (start of the call) in the JS branch. -/
theorem branches_print_different_positions :
    processContent "rules.txt" ["element.onevent"] (.html [.tree parenthesizedAssignment]) =
      ⟨⟨[.scanning "rules.txt",
          .ruleMatch ⟨"element.onevent", some 1, 1, 1, some "element.onclick"⟩,
          .ruleMatch ⟨"element.onevent", some 1, 1, 1, some "element.onclick"⟩], true⟩, none⟩ ∧
    processContent "rules.txt" ["element.onevent"] (.js (.tree parenthesizedAssignment)) =
      ⟨⟨[.scanning "rules.txt",
          .ruleMatch ⟨"element.onevent", none, 1, 0, some "element.onclick"⟩,
          .ruleMatch ⟨"element.onevent", none, 1, 1, some "element.onclick"⟩], true⟩, none⟩ ∧
    processContent "rules.txt" ["html"] (.html [.tree parenthesizedCall]) =
      ⟨⟨[.scanning "rules.txt",
          .ruleMatch ⟨".html()", some 1, 1, 1, none⟩,
          .ruleMatch ⟨"html", some 1, 1, 1, some "foo.html"⟩], true⟩, none⟩ ∧
    processContent "rules.txt" ["html"] (.js (.tree parenthesizedCall)) =
      ⟨⟨[.scanning "rules.txt",
          .ruleMatch ⟨".html()", none, 1, 0, none⟩,
          .ruleMatch ⟨"html", none, 1, 1, some "foo.html"⟩], true⟩, none⟩ := by
  refine ⟨?_, ?_, ?_, ?_⟩ <;> decide

end Scan
